import Mathlib

/-!
Verification of the ABR server state core (`abr_server/state.py`,
`abr_server/notifier.py`, `abr_server/visasset_manager.py`, `api/views.py`)
against its specification.

JSON documents are modelled by the mutual inductive family `Json` / `JArr` /
`JObj` below.  Python `dict`s compare equal regardless of key order, so the
embedding keeps objects in a canonical, strictly key-sorted form: `wfJ`
states that every object in a value has strictly increasing keys.  Every
Python dict has exactly one canonical representative, all operations of the
source preserve canonicity, and Python `==` on dicts coincides with Lean `=`
on canonical representatives, so this is a faithful quotient model of the
source's JSON trees.  Arrays and scalars are embedded directly (numbers as
`Int`; the server never arithmetically mixes bools and numbers, so Python's
`True == 1` quirk is irrelevant here).
-/

namespace ABR

mutual
/-- A JSON value, as manipulated by the ABR server. -/
inductive Json where
  | null : Json
  | bool (b : Bool) : Json
  | num (n : Int) : Json
  | str (s : String) : Json
  | arr (elems : JArr) : Json
  | obj (members : JObj) : Json
/-- A JSON array, as its own inductive so that structural mutual recursion
(and hence kernel evaluation) works. -/
inductive JArr where
  | nil : JArr
  | cons (hd : Json) (tl : JArr) : JArr
/-- A JSON object: an association list of string keys and values. -/
inductive JObj where
  | nil : JObj
  | cons (k : String) (v : Json) (tl : JObj) : JObj
end

mutual
/-- Structural boolean equality on `Json`. -/
def beqJ : Json → Json → Bool
  | .null, .null => true
  | .bool a, .bool b => a == b
  | .num n, .num m => n == m
  | .str s, .str t => s == t
  | .arr xs, .arr ys => beqA xs ys
  | .obj xs, .obj ys => beqO xs ys
  | _, _ => false
/-- Structural boolean equality on `JArr`. -/
def beqA : JArr → JArr → Bool
  | .nil, .nil => true
  | .cons x xs, .cons y ys => beqJ x y && beqA xs ys
  | _, _ => false
/-- Structural boolean equality on `JObj`. -/
def beqO : JObj → JObj → Bool
  | .nil, .nil => true
  | .cons k v tl, .cons k2 v2 tl2 => k == k2 && beqJ v v2 && beqO tl tl2
  | _, _ => false
end

mutual
theorem beqJ_iff : ∀ a b : Json, beqJ a b = true ↔ a = b
  | .null, .null => by simp [beqJ]
  | .bool a, .bool b => by simp [beqJ]
  | .num n, .num m => by simp [beqJ]
  | .str s, .str t => by simp [beqJ]
  | .arr xs, .arr ys => by simpa [beqJ] using beqA_iff xs ys
  | .obj xs, .obj ys => by simpa [beqJ] using beqO_iff xs ys
  | .null, .bool _ => by simp [beqJ]
  | .null, .num _ => by simp [beqJ]
  | .null, .str _ => by simp [beqJ]
  | .null, .arr _ => by simp [beqJ]
  | .null, .obj _ => by simp [beqJ]
  | .bool _, .null => by simp [beqJ]
  | .bool _, .num _ => by simp [beqJ]
  | .bool _, .str _ => by simp [beqJ]
  | .bool _, .arr _ => by simp [beqJ]
  | .bool _, .obj _ => by simp [beqJ]
  | .num _, .null => by simp [beqJ]
  | .num _, .bool _ => by simp [beqJ]
  | .num _, .str _ => by simp [beqJ]
  | .num _, .arr _ => by simp [beqJ]
  | .num _, .obj _ => by simp [beqJ]
  | .str _, .null => by simp [beqJ]
  | .str _, .bool _ => by simp [beqJ]
  | .str _, .num _ => by simp [beqJ]
  | .str _, .arr _ => by simp [beqJ]
  | .str _, .obj _ => by simp [beqJ]
  | .arr _, .null => by simp [beqJ]
  | .arr _, .bool _ => by simp [beqJ]
  | .arr _, .num _ => by simp [beqJ]
  | .arr _, .str _ => by simp [beqJ]
  | .arr _, .obj _ => by simp [beqJ]
  | .obj _, .null => by simp [beqJ]
  | .obj _, .bool _ => by simp [beqJ]
  | .obj _, .num _ => by simp [beqJ]
  | .obj _, .str _ => by simp [beqJ]
  | .obj _, .arr _ => by simp [beqJ]
theorem beqA_iff : ∀ a b : JArr, beqA a b = true ↔ a = b
  | .nil, .nil => by simp [beqA]
  | .cons x xs, .cons y ys => by
      simp [beqA, Bool.and_eq_true, beqJ_iff x y, beqA_iff xs ys]
  | .nil, .cons _ _ => by simp [beqA]
  | .cons _ _, .nil => by simp [beqA]
theorem beqO_iff : ∀ a b : JObj, beqO a b = true ↔ a = b
  | .nil, .nil => by simp [beqO]
  | .cons k v tl, .cons k2 v2 tl2 => by
      simp [beqO, Bool.and_eq_true, beqJ_iff v v2, beqO_iff tl tl2, and_assoc]
  | .nil, .cons _ _ _ => by simp [beqO]
  | .cons _ _ _, .nil => by simp [beqO]
end

instance : DecidableEq Json := fun a b => decidable_of_iff _ (beqJ_iff a b)

instance : DecidableEq JArr := fun a b => decidable_of_iff _ (beqA_iff a b)

instance : DecidableEq JObj := fun a b => decidable_of_iff _ (beqO_iff a b)

/-! ## A computable total order on keys

Dict keys are kept sorted by a lexicographic order on the characters'
code points.  (Any fixed total order gives the same canonical
representative up to relabelling; this one evaluates inside the kernel.) -/

/-- Lexicographic order on character lists by code point. -/
def strLtL : List Char → List Char → Bool
  | [], [] => false
  | [], _ :: _ => true
  | _ :: _, [] => false
  | c :: cs, d :: ds =>
    if c.val.toNat < d.val.toNat then true
    else if d.val.toNat < c.val.toNat then false
    else strLtL cs ds

/-- Lexicographic order on strings by code point. -/
def strLt (a b : String) : Bool :=
  strLtL a.data b.data

theorem strLtL_irrefl : ∀ l : List Char, strLtL l l = false
  | [] => rfl
  | c :: cs => by simp [strLtL, strLtL_irrefl cs]

theorem strLtL_trans : ∀ {l1 l2 l3 : List Char}, strLtL l1 l2 = true →
    strLtL l2 l3 = true → strLtL l1 l3 = true
  | [], [], _, h1, _ => by simp [strLtL] at h1
  | [], _ :: _, [], _, h2 => by simp [strLtL] at h2
  | [], _ :: _, _ :: _, _, _ => rfl
  | _ :: _, [], _, h1, _ => by simp [strLtL] at h1
  | _ :: _, _ :: _, [], _, h2 => by simp [strLtL] at h2
  | c :: cs, d :: ds, e :: es, h1, h2 => by
    simp only [strLtL] at h1 h2 ⊢
    by_cases hcd : c.val.toNat < d.val.toNat
    · by_cases hde : d.val.toNat < e.val.toNat
      · rw [if_pos (Nat.lt_trans hcd hde)]
      · rw [if_neg hde] at h2
        by_cases hed : e.val.toNat < d.val.toNat
        · rw [if_pos hed] at h2
          exact Bool.noConfusion h2
        · rw [if_pos (show c.val.toNat < e.val.toNat by omega)]
    · rw [if_neg hcd] at h1
      by_cases hdc : d.val.toNat < c.val.toNat
      · rw [if_pos hdc] at h1
        exact Bool.noConfusion h1
      · rw [if_neg hdc] at h1
        by_cases hde : d.val.toNat < e.val.toNat
        · rw [if_pos (show c.val.toNat < e.val.toNat by omega)]
        · rw [if_neg hde] at h2
          by_cases hed : e.val.toNat < d.val.toNat
          · rw [if_pos hed] at h2
            exact Bool.noConfusion h2
          · rw [if_neg hed] at h2
            rw [if_neg (show ¬ c.val.toNat < e.val.toNat by omega),
              if_neg (show ¬ e.val.toNat < c.val.toNat by omega)]
            exact strLtL_trans h1 h2

theorem strLtL_total : ∀ {l1 l2 : List Char}, l1 ≠ l2 →
    strLtL l1 l2 = true ∨ strLtL l2 l1 = true
  | [], [], h => absurd rfl h
  | [], _ :: _, _ => Or.inl rfl
  | _ :: _, [], _ => Or.inr rfl
  | c :: cs, d :: ds, h => by
    by_cases hcd : c.val.toNat < d.val.toNat
    · exact Or.inl (by simp [strLtL, hcd])
    · by_cases hdc : d.val.toNat < c.val.toNat
      · exact Or.inr (by simp [strLtL, hdc])
      · have hc : c = d := Char.ext (UInt32.ext (by omega))
        subst hc
        have htl : cs ≠ ds := fun he => h (by rw [he])
        rcases strLtL_total htl with h1 | h1
        · exact Or.inl (by simp [strLtL, h1])
        · exact Or.inr (by simp [strLtL, h1])

theorem strLt_irrefl (a : String) : strLt a a = false :=
  strLtL_irrefl a.data

theorem strLt_trans {a b c : String} (h1 : strLt a b = true)
    (h2 : strLt b c = true) : strLt a c = true :=
  strLtL_trans h1 h2

theorem strLt_ne {a b : String} (h : strLt a b = true) : a ≠ b := by
  intro he
  subst he
  rw [strLt_irrefl] at h
  exact Bool.noConfusion h

theorem strLt_total {a b : String} (h : a ≠ b) :
    strLt a b = true ∨ strLt b a = true := by
  refine strLtL_total (fun he => h ?_)
  cases a
  cases b
  simp only at he
  rw [he]

/-! ## Object (dict) primitives

These model the primitive Python dict operations used by `state.py`:
key lookup (`d[k]` / `k in d`), key assignment (`d[k] = v`) and key removal
(`del d[k]`), on the canonical key-sorted representation. -/

/-- Python `d.get(k)` / `d[k]`: value of the first entry with key `k`. -/
def lookupJ (key : String) : JObj → Option Json
  | .nil => none
  | .cons k v tl => if key = k then some v else lookupJ key tl

/-- Python `k in d`. -/
def containsKeyJ (key : String) (o : JObj) : Bool :=
  (lookupJ key o).isSome

/-- Python `d[k] = v` on the canonical sorted form: replace the entry if the
key is present, otherwise insert it at its sorted position. -/
def insertKV (key : String) (val : Json) : JObj → JObj
  | .nil => .cons key val .nil
  | .cons k v tl =>
    if key = k then .cons k val tl
    else if strLt key k then .cons key val (.cons k v tl)
    else .cons k v (insertKV key val tl)

/-- Python `del d[k]` (no-op when absent; callers guard presence). -/
def eraseKV (key : String) : JObj → JObj
  | .nil => .nil
  | .cons k v tl => if key = k then tl else .cons k v (eraseKV key tl)

/-- All keys of `o` are strictly greater than `key`. -/
def allKeysGt (key : String) : JObj → Bool
  | .nil => true
  | .cons k _ tl => strLt key k && allKeysGt key tl

mutual
/-- Canonicity: every object reachable inside the value has strictly
increasing keys (the canonical representative of a Python value). -/
def wfJ : Json → Bool
  | .null => true
  | .bool _ => true
  | .num _ => true
  | .str _ => true
  | .arr xs => wfA xs
  | .obj kvs => wfO kvs
/-- Canonicity for arrays: all elements canonical. -/
def wfA : JArr → Bool
  | .nil => true
  | .cons x xs => wfJ x && wfA xs
/-- Canonicity for objects: strictly increasing keys, canonical values. -/
def wfO : JObj → Bool
  | .nil => true
  | .cons k v tl => allKeysGt k tl && wfJ v && wfO tl
end

/-! Basic lemmas about the dict primitives. -/

theorem lookupJ_nil (key : String) : lookupJ key .nil = none := rfl

theorem lookupJ_cons (key k : String) (v : Json) (tl : JObj) :
    lookupJ key (.cons k v tl) = if key = k then some v else lookupJ key tl := rfl

theorem allKeysGt_lookupJ {key : String} : ∀ {o : JObj},
    allKeysGt key o = true → lookupJ key o = none
  | .nil, _ => rfl
  | .cons k v tl, h => by
    simp only [allKeysGt, Bool.and_eq_true] at h
    have hne : key ≠ k := strLt_ne h.1
    simp [lookupJ, hne, allKeysGt_lookupJ h.2]

theorem allKeysGt_trans {a b : String} (hab : strLt a b = true) : ∀ {o : JObj},
    allKeysGt b o = true → allKeysGt a o = true
  | .nil, _ => rfl
  | .cons k v tl, h => by
    simp only [allKeysGt, Bool.and_eq_true] at h ⊢
    exact ⟨strLt_trans hab h.1, allKeysGt_trans hab h.2⟩

theorem wfO_cons {k : String} {v : Json} {tl : JObj}
    (h : wfO (.cons k v tl) = true) :
    allKeysGt k tl = true ∧ wfJ v = true ∧ wfO tl = true := by
  simpa only [wfO, Bool.and_eq_true, and_assoc] using h

/-- Canonical objects are determined by their lookup function. -/
theorem jobj_ext : ∀ (a b : JObj), wfO a = true → wfO b = true →
    (∀ k, lookupJ k a = lookupJ k b) → a = b
  | .nil, .nil, _, _, _ => rfl
  | .nil, .cons k v tl, _, _, h => by
    have h2 := h k
    simp [lookupJ] at h2
  | .cons k v tl, .nil, _, _, h => by
    have h2 := h k
    simp [lookupJ] at h2
  | .cons k1 v1 tl1, .cons k2 v2 tl2, ha, hb, h => by
    obtain ⟨ha1, ha2, ha3⟩ := wfO_cons ha
    obtain ⟨hb1, hb2, hb3⟩ := wfO_cons hb
    have hk : k1 = k2 := by
      by_contra hne
      rcases strLt_total hne with hlt | hgt
      · have h2 := h k1
        rw [lookupJ_cons, lookupJ_cons, if_pos rfl, if_neg hne,
          allKeysGt_lookupJ (allKeysGt_trans hlt hb1)] at h2
        exact Option.noConfusion h2
      · have h2 := h k2
        rw [lookupJ_cons, lookupJ_cons, if_pos rfl, if_neg (strLt_ne hgt),
          allKeysGt_lookupJ (allKeysGt_trans hgt ha1)] at h2
        exact Option.noConfusion h2
    subst hk
    have hv : v1 = v2 := by
      have h2 := h k1
      simpa [lookupJ] using h2
    have htl : tl1 = tl2 := by
      refine jobj_ext tl1 tl2 ha3 hb3 (fun k => ?_)
      by_cases hk : k = k1
      · subst hk
        rw [allKeysGt_lookupJ ha1, allKeysGt_lookupJ hb1]
      · have h2 := h k
        simpa [lookupJ, hk] using h2
    rw [hv, htl]

theorem lookupJ_insertKV (k key : String) (val : Json) : ∀ (o : JObj),
    lookupJ k (insertKV key val o) = if k = key then some val else lookupJ k o
  | .nil => by by_cases h : k = key <;> simp [insertKV, lookupJ, h]
  | .cons k2 v2 tl => by
    by_cases hk : key = k2
    · subst hk
      by_cases h : k = key <;> simp [insertKV, lookupJ, h]
    · rw [insertKV, if_neg hk]
      by_cases hlt : strLt key k2 = true
      · rw [if_pos hlt]
        by_cases h : k = key
        · subst h
          simp [lookupJ, hk]
        · simp [lookupJ, h]
      · rw [if_neg hlt, lookupJ_cons, lookupJ_cons,
          lookupJ_insertKV k key val tl]
        by_cases h : k = k2
        · subst h
          have : k ≠ key := fun he => hk he.symm
          simp [this]
        · simp [h]

theorem lookupJ_eraseKV (k key : String) : ∀ {o : JObj}, wfO o = true →
    lookupJ k (eraseKV key o) = if k = key then none else lookupJ k o
  | .nil, _ => by by_cases h : k = key <;> simp [eraseKV, lookupJ, h]
  | .cons k2 v2 tl, hwf => by
    obtain ⟨h1, _, h3⟩ := wfO_cons hwf
    by_cases hk : key = k2
    · subst hk
      rw [eraseKV, if_pos rfl]
      by_cases h : k = key
      · subst h
        rw [if_pos rfl, allKeysGt_lookupJ h1]
      · simp [lookupJ, h]
    · rw [eraseKV, if_neg hk, lookupJ_cons, lookupJ_cons,
        lookupJ_eraseKV k key h3]
      by_cases h : k = k2
      · subst h
        have : k ≠ key := fun he => hk he.symm
        simp [this]
      · simp [h]

theorem allKeysGt_insertKV {a key : String} {val : Json} (hlt : strLt a key = true) :
    ∀ {o : JObj}, allKeysGt a o = true → allKeysGt a (insertKV key val o) = true
  | .nil, _ => by simp [insertKV, allKeysGt, hlt]
  | .cons k v tl, h => by
    simp only [allKeysGt, Bool.and_eq_true] at h
    by_cases hk : key = k
    · subst hk
      simp [insertKV, allKeysGt, h.1, h.2]
    · rw [insertKV, if_neg hk]
      by_cases hl : strLt key k = true
      · rw [if_pos hl]
        simp only [allKeysGt, Bool.and_eq_true]
        exact ⟨hlt, h.1, h.2⟩
      · rw [if_neg hl]
        simp only [allKeysGt, Bool.and_eq_true]
        exact ⟨h.1, allKeysGt_insertKV hlt h.2⟩

theorem wfO_insertKV {key : String} {val : Json} (hval : wfJ val = true) :
    ∀ {o : JObj}, wfO o = true → wfO (insertKV key val o) = true
  | .nil, _ => by simp [insertKV, wfO, allKeysGt, hval]
  | .cons k v tl, hwf => by
    obtain ⟨h1, h2, h3⟩ := wfO_cons hwf
    by_cases hk : key = k
    · subst hk
      simp [insertKV, wfO, h1, h3, hval]
    · rw [insertKV, if_neg hk]
      by_cases hl : strLt key k = true
      · rw [if_pos hl]
        simp only [wfO, allKeysGt, Bool.and_eq_true]
        exact ⟨⟨⟨hl, allKeysGt_trans hl h1⟩, hval⟩, ⟨h1, h2⟩, h3⟩
      · rw [if_neg hl]
        have hgt : strLt k key = true := by
          rcases strLt_total hk with h | h
          · exact absurd h hl
          · exact h
        simp only [wfO, Bool.and_eq_true]
        exact ⟨⟨allKeysGt_insertKV hgt h1, h2⟩, wfO_insertKV hval h3⟩

theorem allKeysGt_eraseKV {a key : String} : ∀ {o : JObj},
    allKeysGt a o = true → allKeysGt a (eraseKV key o) = true
  | .nil, _ => rfl
  | .cons k v tl, h => by
    simp only [allKeysGt, Bool.and_eq_true, decide_eq_true_eq] at h
    by_cases hk : key = k
    · simp [eraseKV, hk, h.2]
    · simp only [eraseKV, if_neg hk, allKeysGt, Bool.and_eq_true,
        decide_eq_true_eq]
      exact ⟨h.1, allKeysGt_eraseKV h.2⟩

theorem wfO_eraseKV {key : String} : ∀ {o : JObj},
    wfO o = true → wfO (eraseKV key o) = true
  | .nil, _ => rfl
  | .cons k v tl, hwf => by
    obtain ⟨h1, h2, h3⟩ := wfO_cons hwf
    by_cases hk : key = k
    · simpa [eraseKV, hk] using h3
    · simp only [eraseKV, if_neg hk, wfO, Bool.and_eq_true]
      exact ⟨⟨allKeysGt_eraseKV h1, h2⟩, wfO_eraseKV h3⟩

theorem lookupJ_wfJ {k : String} : ∀ {o : JObj} {v : Json},
    wfO o = true → lookupJ k o = some v → wfJ v = true
  | .nil, v, _, h => by simp [lookupJ] at h
  | .cons k2 v2 tl, v, hwf, h => by
    obtain ⟨_, h2, h3⟩ := wfO_cons hwf
    rw [lookupJ_cons] at h
    by_cases hk : k = k2
    · rw [if_pos hk] at h
      cases h
      exact h2
    · rw [if_neg hk] at h
      exact lookupJ_wfJ h3 h

/-- Key-sortedness alone (ignoring nested values); implied by `wfO`. -/
def sortedO : JObj → Bool
  | .nil => true
  | .cons k _ tl => allKeysGt k tl && sortedO tl

theorem wfO_sortedO : ∀ {o : JObj}, wfO o = true → sortedO o = true
  | .nil, _ => rfl
  | .cons k v tl, h => by
    obtain ⟨h1, _, h3⟩ := wfO_cons h
    simp only [sortedO, Bool.and_eq_true]
    exact ⟨h1, wfO_sortedO h3⟩

theorem sortedO_cons {k : String} {v : Json} {tl : JObj}
    (h : sortedO (.cons k v tl) = true) :
    allKeysGt k tl = true ∧ sortedO tl = true := by
  simpa only [sortedO, Bool.and_eq_true] using h

theorem sortedO_insertKV {key : String} {val : Json} : ∀ {o : JObj},
    sortedO o = true → sortedO (insertKV key val o) = true
  | .nil, _ => by simp [insertKV, sortedO, allKeysGt]
  | .cons k v tl, hwf => by
    obtain ⟨h1, h3⟩ := sortedO_cons hwf
    by_cases hk : key = k
    · subst hk
      simp only [insertKV, if_pos rfl, sortedO, Bool.and_eq_true]
      exact ⟨h1, h3⟩
    · rw [insertKV, if_neg hk]
      by_cases hl : strLt key k = true
      · rw [if_pos hl]
        simp only [sortedO, allKeysGt, Bool.and_eq_true]
        exact ⟨⟨hl, allKeysGt_trans hl h1⟩, h1, h3⟩
      · rw [if_neg hl]
        have hgt : strLt k key = true := by
          rcases strLt_total hk with h | h
          · exact absurd h hl
          · exact h
        simp only [sortedO, Bool.and_eq_true]
        exact ⟨allKeysGt_insertKV hgt h1, sortedO_insertKV h3⟩

theorem sortedO_eraseKV {key : String} : ∀ {o : JObj},
    sortedO o = true → sortedO (eraseKV key o) = true
  | .nil, _ => rfl
  | .cons k v tl, hwf => by
    obtain ⟨h1, h3⟩ := sortedO_cons hwf
    by_cases hk : key = k
    · simpa [eraseKV, hk] using h3
    · simp only [eraseKV, if_neg hk, sortedO, Bool.and_eq_true]
      exact ⟨allKeysGt_eraseKV h1, sortedO_eraseKV h3⟩

/-- `lookupJ_eraseKV` restated for key-sortedness only. -/
theorem lookupJ_eraseKV_sorted (k key : String) : ∀ {o : JObj},
    sortedO o = true →
    lookupJ k (eraseKV key o) = if k = key then none else lookupJ k o
  | .nil, _ => by by_cases h : k = key <;> simp [eraseKV, lookupJ, h]
  | .cons k2 v2 tl, hwf => by
    obtain ⟨h1, h3⟩ := sortedO_cons hwf
    by_cases hk : key = k2
    · subst hk
      rw [eraseKV, if_pos rfl]
      by_cases h : k = key
      · subst h
        rw [if_pos rfl, allKeysGt_lookupJ h1]
      · simp [lookupJ, h]
    · rw [eraseKV, if_neg hk, lookupJ_cons, lookupJ_cons,
        lookupJ_eraseKV_sorted k key h3]
      by_cases h : k = k2
      · subst h
        have hne : k ≠ key := fun he => hk he.symm
        simp [hne]
      · simp [h]

/-- `jobj_ext` restated for key-sortedness only. -/
theorem jobj_ext_sorted : ∀ (a b : JObj), sortedO a = true → sortedO b = true →
    (∀ k, lookupJ k a = lookupJ k b) → a = b
  | .nil, .nil, _, _, _ => rfl
  | .nil, .cons k v tl, _, _, h => by
    have h2 := h k
    simp [lookupJ] at h2
  | .cons k v tl, .nil, _, _, h => by
    have h2 := h k
    simp [lookupJ] at h2
  | .cons k1 v1 tl1, .cons k2 v2 tl2, ha, hb, h => by
    obtain ⟨ha1, ha3⟩ := sortedO_cons ha
    obtain ⟨hb1, hb3⟩ := sortedO_cons hb
    have hk : k1 = k2 := by
      by_contra hne
      rcases strLt_total hne with hlt | hgt
      · have h2 := h k1
        rw [lookupJ_cons, lookupJ_cons, if_pos rfl, if_neg hne,
          allKeysGt_lookupJ (allKeysGt_trans hlt hb1)] at h2
        exact Option.noConfusion h2
      · have h2 := h k2
        rw [lookupJ_cons, lookupJ_cons, if_pos rfl, if_neg (strLt_ne hgt),
          allKeysGt_lookupJ (allKeysGt_trans hgt ha1)] at h2
        exact Option.noConfusion h2
    subst hk
    have hv : v1 = v2 := by
      have h2 := h k1
      simpa [lookupJ] using h2
    have htl : tl1 = tl2 := by
      refine jobj_ext_sorted tl1 tl2 ha3 hb3 (fun k => ?_)
      by_cases hk : k = k1
      · subst hk
        rw [allKeysGt_lookupJ ha1, allKeysGt_lookupJ hb1]
      · have h2 := h k
        simpa [lookupJ, hk] using h2
    rw [hv, htl]

/-! ## The structural diff engine

Modelled from the spec: the source delegates Diff computation and
application to the third-party `jsondiff` library
(`jsondiff.diff(..., syntax='symmetric', marshal=True)`, `jsondiff.patch`,
`JsonDiffer.unpatch`), whose code is not part of this repository.  The spec
describes the DiffEngine as a leaf component: "computes a structural,
symmetric difference between two document trees, and can apply a diff
forward or in reverse to reconstruct the other side", an "edit-script
variant (add/remove/replace per path) with a documented forward/inverse
symmetry".  The embedding below implements exactly that contract: objects
are diffed key by key into delete/insert/sub-diff entries (as jsondiff's
symmetric dict diff does); any other differing pair becomes a replace pair
holding both sides.  `diffJ a b = none` models an empty diff (`len(d) > 0`
is the source's non-emptiness test), `patch` applies a diff forward
(`a` to `b`), `unpatch` applies it in reverse (`b` to `a`). -/

mutual
/-- A structural diff between two JSON values. -/
inductive Diff where
  | replace (o n : Json) : Diff
  | dobj (es : DEntries) : Diff
/-- Per-key edits of an object diff, keyed by object key. -/
inductive DEntries where
  | nil : DEntries
  | cons (k : String) (e : DEntry) (tl : DEntries) : DEntries
/-- One per-key edit: key deleted (with old value), key inserted (with new
value), or value changed (with a sub-diff). -/
inductive DEntry where
  | del (v : Json) : DEntry
  | ins (v : Json) : DEntry
  | sub (d : Diff) : DEntry
end

/-- Concatenation of per-key edit lists. -/
def dAppend : DEntries → DEntries → DEntries
  | .nil, ys => ys
  | .cons k e tl, ys => .cons k e (dAppend tl ys)

/-- Insert-entries of `diffJ (obj as) (obj bs)`: one `ins` per key of `bs`
that is not a key of `as`. -/
def insEntries (as : JObj) : JObj → DEntries
  | .nil => .nil
  | .cons k vb tl =>
    if containsKeyJ k as then insEntries as tl
    else .cons k (.ins vb) (insEntries as tl)

mutual
/-- Symmetric structural diff; `none` is the empty diff (`a` equals `b`). -/
def diffJ : Json → Json → Option Diff
  | .obj as, .obj bs =>
    match dAppend (diffEntries as bs) (insEntries as bs) with
    | .nil => none
    | es => some (.dobj es)
  | .null, .null => none
  | .bool a, .bool b =>
    if a = b then none else some (.replace (.bool a) (.bool b))
  | .num a, .num b =>
    if a = b then none else some (.replace (.num a) (.num b))
  | .str a, .str b =>
    if a = b then none else some (.replace (.str a) (.str b))
  | .arr xs, .arr ys =>
    if xs = ys then none else some (.replace (.arr xs) (.arr ys))
  | a, b => some (.replace a b)
/-- Delete and sub-diff entries: one per key of `as`, compared against
`bs`. -/
def diffEntries : JObj → JObj → DEntries
  | .nil, _ => .nil
  | .cons k va tl, bs =>
    match lookupJ k bs with
    | none => .cons k (.del va) (diffEntries tl bs)
    | some vb =>
      match diffJ va vb with
      | none => diffEntries tl bs
      | some d => .cons k (.sub d) (diffEntries tl bs)
end

mutual
/-- Apply a diff forward: `patch a (diffJ a b) = b`. -/
def patch : Json → Diff → Json
  | _, .replace _ n => n
  | x, .dobj es =>
    match x with
    | .obj xs => .obj (patchEntries xs es)
    | x => x
/-- Apply the edits of an object diff, left to right. -/
def patchEntries : JObj → DEntries → JObj
  | xs, .nil => xs
  | xs, .cons k e tl => patchEntries (patchEntry k xs e) tl
/-- Apply one per-key edit forward. -/
def patchEntry (k : String) (xs : JObj) : DEntry → JObj
  | .del _ => eraseKV k xs
  | .ins v => insertKV k v xs
  | .sub d =>
    match lookupJ k xs with
    | some v => insertKV k (patch v d) xs
    | none => xs
end

mutual
/-- Apply a diff in reverse: `unpatch b (diffJ a b) = a`. -/
def unpatch : Json → Diff → Json
  | _, .replace o _ => o
  | y, .dobj es =>
    match y with
    | .obj ys => .obj (unpatchEntries ys es)
    | y => y
/-- Apply the edits of an object diff in reverse, left to right. -/
def unpatchEntries : JObj → DEntries → JObj
  | ys, .nil => ys
  | ys, .cons k e tl => unpatchEntries (unpatchEntry k ys e) tl
/-- Apply one per-key edit in reverse. -/
def unpatchEntry (k : String) (ys : JObj) : DEntry → JObj
  | .del v => insertKV k v ys
  | .ins _ => eraseKV k ys
  | .sub d =>
    match lookupJ k ys with
    | some v => insertKV k (unpatch v d) ys
    | none => ys
end

/-- First edit recorded for a key. -/
def findEntry (key : String) : DEntries → Option DEntry
  | .nil => none
  | .cons k e tl => if key = k then some e else findEntry key tl

mutual
/-- Structural boolean equality on `Diff`. -/
def beqD : Diff → Diff → Bool
  | .replace o n, .replace o2 n2 => beqJ o o2 && beqJ n n2
  | .dobj es, .dobj es2 => beqDEs es es2
  | _, _ => false
/-- Structural boolean equality on `DEntries`. -/
def beqDEs : DEntries → DEntries → Bool
  | .nil, .nil => true
  | .cons k e tl, .cons k2 e2 tl2 => k == k2 && beqDE e e2 && beqDEs tl tl2
  | _, _ => false
/-- Structural boolean equality on `DEntry`. -/
def beqDE : DEntry → DEntry → Bool
  | .del v, .del v2 => beqJ v v2
  | .ins v, .ins v2 => beqJ v v2
  | .sub d, .sub d2 => beqD d d2
  | _, _ => false
end

mutual
theorem beqD_iff : ∀ a b : Diff, beqD a b = true ↔ a = b
  | .replace o n, .replace o2 n2 => by
    simp [beqD, Bool.and_eq_true, beqJ_iff o o2, beqJ_iff n n2]
  | .dobj es, .dobj es2 => by simpa [beqD] using beqDEs_iff es es2
  | .replace _ _, .dobj _ => by simp [beqD]
  | .dobj _, .replace _ _ => by simp [beqD]
theorem beqDEs_iff : ∀ a b : DEntries, beqDEs a b = true ↔ a = b
  | .nil, .nil => by simp [beqDEs]
  | .cons k e tl, .cons k2 e2 tl2 => by
    simp [beqDEs, Bool.and_eq_true, beqDE_iff e e2, beqDEs_iff tl tl2,
      and_assoc]
  | .nil, .cons _ _ _ => by simp [beqDEs]
  | .cons _ _ _, .nil => by simp [beqDEs]
theorem beqDE_iff : ∀ a b : DEntry, beqDE a b = true ↔ a = b
  | .del v, .del v2 => by simp [beqDE, beqJ_iff v v2]
  | .ins v, .ins v2 => by simp [beqDE, beqJ_iff v v2]
  | .sub d, .sub d2 => by simpa [beqDE] using beqD_iff d d2
  | .del _, .ins _ => by simp [beqDE]
  | .del _, .sub _ => by simp [beqDE]
  | .ins _, .del _ => by simp [beqDE]
  | .ins _, .sub _ => by simp [beqDE]
  | .sub _, .del _ => by simp [beqDE]
  | .sub _, .ins _ => by simp [beqDE]
end

instance : DecidableEq Diff := fun a b => decidable_of_iff _ (beqD_iff a b)

instance : DecidableEq DEntries := fun a b => decidable_of_iff _ (beqDEs_iff a b)

instance : DecidableEq DEntry := fun a b => decidable_of_iff _ (beqDE_iff a b)

/-! Lookup characterizations of diff application. -/

theorem findEntry_dAppend (k : String) : ∀ (xs ys : DEntries),
    findEntry k (dAppend xs ys) =
      match findEntry k xs with
      | some e => some e
      | none => findEntry k ys
  | .nil, ys => rfl
  | .cons k0 e0 tl, ys => by
    by_cases h : k = k0 <;>
      simp [dAppend, findEntry, h, findEntry_dAppend k tl ys]

theorem dAppend_eq_nil : ∀ {xs ys : DEntries},
    dAppend xs ys = .nil → xs = .nil ∧ ys = .nil
  | .nil, ys, h => ⟨rfl, h⟩
  | .cons _ _ _, _, h => DEntries.noConfusion h

/-- Effect of a forward edit on the value looked up at its key. -/
def entryEffect : Option DEntry → Option Json → Option Json
  | none, cur => cur
  | some (.del _), _ => none
  | some (.ins v), _ => some v
  | some (.sub d), cur => cur.map (fun v => patch v d)

/-- Effect of a reverse edit on the value looked up at its key. -/
def uEntryEffect : Option DEntry → Option Json → Option Json
  | none, cur => cur
  | some (.del v), _ => some v
  | some (.ins _), _ => none
  | some (.sub d), cur => cur.map (fun v => unpatch v d)

theorem lookupJ_patchEntry_self {k : String} {xs : JObj} (hs : sortedO xs = true) :
    ∀ e : DEntry, lookupJ k (patchEntry k xs e) = entryEffect (some e) (lookupJ k xs)
  | .del v => by
    rw [patchEntry, lookupJ_eraseKV_sorted k k hs, if_pos rfl]
    rfl
  | .ins v => by
    rw [patchEntry, lookupJ_insertKV, if_pos rfl]
    rfl
  | .sub d => by
    rw [patchEntry]
    cases hcur : lookupJ k xs with
    | none => simp [entryEffect, hcur]
    | some v => simp [entryEffect, hcur, lookupJ_insertKV]

theorem lookupJ_patchEntry_ne {k k0 : String} {xs : JObj} (hne : k ≠ k0)
    (hs : sortedO xs = true) :
    ∀ e : DEntry, lookupJ k (patchEntry k0 xs e) = lookupJ k xs
  | .del v => by rw [patchEntry, lookupJ_eraseKV_sorted k k0 hs, if_neg hne]
  | .ins v => by rw [patchEntry, lookupJ_insertKV, if_neg hne]
  | .sub d => by
    rw [patchEntry]
    cases hcur : lookupJ k0 xs with
    | none => rfl
    | some v => rw [lookupJ_insertKV, if_neg hne]

theorem lookupJ_unpatchEntry_self {k : String} {xs : JObj} (hs : sortedO xs = true) :
    ∀ e : DEntry, lookupJ k (unpatchEntry k xs e) = uEntryEffect (some e) (lookupJ k xs)
  | .del v => by
    rw [unpatchEntry, lookupJ_insertKV, if_pos rfl]
    rfl
  | .ins v => by
    rw [unpatchEntry, lookupJ_eraseKV_sorted k k hs, if_pos rfl]
    rfl
  | .sub d => by
    rw [unpatchEntry]
    cases hcur : lookupJ k xs with
    | none => simp [uEntryEffect, hcur]
    | some v => simp [uEntryEffect, hcur, lookupJ_insertKV]

theorem lookupJ_unpatchEntry_ne {k k0 : String} {xs : JObj} (hne : k ≠ k0)
    (hs : sortedO xs = true) :
    ∀ e : DEntry, lookupJ k (unpatchEntry k0 xs e) = lookupJ k xs
  | .del v => by rw [unpatchEntry, lookupJ_insertKV, if_neg hne]
  | .ins v => by rw [unpatchEntry, lookupJ_eraseKV_sorted k k0 hs, if_neg hne]
  | .sub d => by
    rw [unpatchEntry]
    cases hcur : lookupJ k0 xs with
    | none => rfl
    | some v => rw [lookupJ_insertKV, if_neg hne]

theorem sortedO_patchEntry {k0 : String} {xs : JObj} (hs : sortedO xs = true) :
    ∀ e : DEntry, sortedO (patchEntry k0 xs e) = true
  | .del _ => sortedO_eraseKV hs
  | .ins _ => sortedO_insertKV hs
  | .sub d => by
    rw [patchEntry]
    cases lookupJ k0 xs with
    | none => exact hs
    | some v => exact sortedO_insertKV hs

theorem sortedO_unpatchEntry {k0 : String} {xs : JObj} (hs : sortedO xs = true) :
    ∀ e : DEntry, sortedO (unpatchEntry k0 xs e) = true
  | .del _ => sortedO_insertKV hs
  | .ins _ => sortedO_eraseKV hs
  | .sub d => by
    rw [unpatchEntry]
    cases lookupJ k0 xs with
    | none => exact hs
    | some v => exact sortedO_insertKV hs

theorem sortedO_patchEntries : ∀ (es : DEntries) {xs : JObj},
    sortedO xs = true → sortedO (patchEntries xs es) = true
  | .nil, _, hs => hs
  | .cons k0 e0 tl, xs, hs =>
    sortedO_patchEntries tl (sortedO_patchEntry hs e0)

theorem sortedO_unpatchEntries : ∀ (es : DEntries) {xs : JObj},
    sortedO xs = true → sortedO (unpatchEntries xs es) = true
  | .nil, _, hs => hs
  | .cons k0 e0 tl, xs, hs =>
    sortedO_unpatchEntries tl (sortedO_unpatchEntry hs e0)

/-- The keys of an edit list are pairwise distinct. -/
def dUniq : DEntries → Bool
  | .nil => true
  | .cons k _ tl => (findEntry k tl).isNone && dUniq tl

theorem dUniq_cons {k : String} {e : DEntry} {tl : DEntries}
    (h : dUniq (.cons k e tl) = true) :
    findEntry k tl = none ∧ dUniq tl = true := by
  simp only [dUniq, Bool.and_eq_true, Option.isNone_iff_eq_none] at h
  exact h

theorem lookupJ_patchEntries (k : String) : ∀ (es : DEntries) {xs : JObj},
    dUniq es = true → sortedO xs = true →
    lookupJ k (patchEntries xs es) = entryEffect (findEntry k es) (lookupJ k xs)
  | .nil, xs, _, _ => rfl
  | .cons k0 e0 tl, xs, hu, hs => by
    obtain ⟨hu1, hu2⟩ := dUniq_cons hu
    rw [patchEntries, lookupJ_patchEntries k tl hu2 (sortedO_patchEntry hs e0)]
    by_cases hk : k = k0
    · subst hk
      rw [hu1, findEntry, if_pos rfl]
      exact congrArg _ (lookupJ_patchEntry_self hs e0)
    · rw [findEntry, if_neg hk]
      exact congrArg _ (lookupJ_patchEntry_ne hk hs e0)

theorem lookupJ_unpatchEntries (k : String) : ∀ (es : DEntries) {xs : JObj},
    dUniq es = true → sortedO xs = true →
    lookupJ k (unpatchEntries xs es) = uEntryEffect (findEntry k es) (lookupJ k xs)
  | .nil, xs, _, _ => rfl
  | .cons k0 e0 tl, xs, hu, hs => by
    obtain ⟨hu1, hu2⟩ := dUniq_cons hu
    rw [unpatchEntries, lookupJ_unpatchEntries k tl hu2 (sortedO_unpatchEntry hs e0)]
    by_cases hk : k = k0
    · subst hk
      rw [hu1, findEntry, if_pos rfl]
      exact congrArg _ (lookupJ_unpatchEntry_self hs e0)
    · rw [findEntry, if_neg hk]
      exact congrArg _ (lookupJ_unpatchEntry_ne hk hs e0)

theorem findEntry_diffEntries_of_absent {k : String} {bs : JObj} : ∀ {as : JObj},
    lookupJ k as = none → findEntry k (diffEntries as bs) = none
  | .nil, _ => rfl
  | .cons k0 va0 tl, h => by
    rw [lookupJ_cons] at h
    by_cases hk : k = k0
    · rw [if_pos hk] at h
      exact Option.noConfusion h
    · rw [if_neg hk] at h
      cases hb : lookupJ k0 bs with
      | none =>
        simp only [diffEntries, hb, findEntry, if_neg hk]
        exact findEntry_diffEntries_of_absent h
      | some vb =>
        cases hd : diffJ va0 vb with
        | none =>
          simp only [diffEntries, hb, hd]
          exact findEntry_diffEntries_of_absent h
        | some d =>
          simp only [diffEntries, hb, hd, findEntry, if_neg hk]
          exact findEntry_diffEntries_of_absent h

theorem findEntry_insEntries_of_absent {k : String} {as : JObj} : ∀ {bs : JObj},
    lookupJ k bs = none → findEntry k (insEntries as bs) = none
  | .nil, _ => rfl
  | .cons k0 vb0 tl, h => by
    rw [lookupJ_cons] at h
    by_cases hk : k = k0
    · rw [if_pos hk] at h
      exact Option.noConfusion h
    · rw [if_neg hk] at h
      rw [insEntries]
      by_cases hc : containsKeyJ k0 as
      · rw [if_pos hc]
        exact findEntry_insEntries_of_absent h
      · rw [if_neg hc, findEntry, if_neg hk]
        exact findEntry_insEntries_of_absent h

theorem findEntry_insEntries_of_contains {k : String} {as : JObj}
    (hc : containsKeyJ k as = true) : ∀ (bs : JObj),
    findEntry k (insEntries as bs) = none
  | .nil => rfl
  | .cons k0 vb0 tl => by
    rw [insEntries]
    by_cases hc0 : containsKeyJ k0 as
    · rw [if_pos hc0]
      exact findEntry_insEntries_of_contains hc tl
    · have hk : k ≠ k0 := fun he => hc0 (he ▸ hc)
      rw [if_neg hc0, findEntry, if_neg hk]
      exact findEntry_insEntries_of_contains hc tl

theorem findEntry_diffEntries (k : String) {bs : JObj} : ∀ {as : JObj},
    sortedO as = true →
    findEntry k (diffEntries as bs) =
      match lookupJ k as with
      | none => none
      | some va =>
        match lookupJ k bs with
        | none => some (.del va)
        | some vb => (diffJ va vb).map .sub
  | .nil, _ => rfl
  | .cons k0 va0 tl, hs => by
    obtain ⟨hs1, hs2⟩ := sortedO_cons hs
    by_cases hk : k = k0
    · subst hk
      rw [lookupJ_cons, if_pos rfl]
      cases hb : lookupJ k bs with
      | none => simp only [diffEntries, hb, findEntry, if_pos rfl, if_true]
      | some vb =>
        cases hd : diffJ va0 vb with
        | none =>
          simp only [diffEntries, hb, hd, Option.map_none]
          exact findEntry_diffEntries_of_absent (allKeysGt_lookupJ hs1)
        | some d =>
          simp only [diffEntries, hb, hd, findEntry, if_pos rfl, if_true,
            Option.map_some]
          rfl
    · rw [lookupJ_cons, if_neg hk]
      cases hb : lookupJ k0 bs with
      | none =>
        simp only [diffEntries, hb, findEntry, if_neg hk]
        exact findEntry_diffEntries k hs2
      | some vb =>
        cases hd : diffJ va0 vb with
        | none =>
          simp only [diffEntries, hb, hd]
          exact findEntry_diffEntries k hs2
        | some d =>
          simp only [diffEntries, hb, hd, findEntry, if_neg hk]
          exact findEntry_diffEntries k hs2

theorem findEntry_insEntries (k : String) {as : JObj} : ∀ {bs : JObj},
    findEntry k (insEntries as bs) =
      if containsKeyJ k as then none else (lookupJ k bs).map .ins
  | .nil => by
    by_cases hc : containsKeyJ k as <;> simp [insEntries, findEntry, lookupJ, hc]
  | .cons k0 vb0 tl => by
    by_cases hk : k = k0
    · subst hk
      rw [insEntries]
      by_cases hc : containsKeyJ k as
      · rw [if_pos hc, if_pos hc]
        exact findEntry_insEntries_of_contains hc tl
      · rw [if_neg hc, if_neg hc, findEntry, if_pos rfl, lookupJ_cons,
          if_pos rfl]
        rfl
    · rw [insEntries, lookupJ_cons, if_neg hk]
      by_cases hc0 : containsKeyJ k0 as
      · rw [if_pos hc0]
        exact findEntry_insEntries k
      · rw [if_neg hc0, findEntry, if_neg hk]
        exact findEntry_insEntries k

theorem dUniq_diffEntries {bs : JObj} : ∀ {as : JObj},
    sortedO as = true → dUniq (diffEntries as bs) = true
  | .nil, _ => rfl
  | .cons k0 va0 tl, hs => by
    obtain ⟨hs1, hs2⟩ := sortedO_cons hs
    have htl : findEntry k0 (diffEntries tl bs) = none :=
      findEntry_diffEntries_of_absent (allKeysGt_lookupJ hs1)
    cases hb : lookupJ k0 bs with
    | none =>
      simp only [diffEntries, hb, dUniq, Bool.and_eq_true,
        Option.isNone_iff_eq_none]
      exact ⟨htl, dUniq_diffEntries hs2⟩
    | some vb =>
      cases hd : diffJ va0 vb with
      | none =>
        simp only [diffEntries, hb, hd]
        exact dUniq_diffEntries hs2
      | some d =>
        simp only [diffEntries, hb, hd, dUniq, Bool.and_eq_true,
          Option.isNone_iff_eq_none]
        exact ⟨htl, dUniq_diffEntries hs2⟩

theorem dUniq_insEntries {as : JObj} : ∀ {bs : JObj},
    sortedO bs = true → dUniq (insEntries as bs) = true
  | .nil, _ => rfl
  | .cons k0 vb0 tl, hs => by
    obtain ⟨hs1, hs2⟩ := sortedO_cons hs
    rw [insEntries]
    by_cases hc0 : containsKeyJ k0 as
    · rw [if_pos hc0]
      exact dUniq_insEntries hs2
    · rw [if_neg hc0]
      simp only [dUniq, Bool.and_eq_true, Option.isNone_iff_eq_none]
      exact ⟨findEntry_insEntries_of_absent (allKeysGt_lookupJ hs1),
        dUniq_insEntries hs2⟩

theorem dUniq_dAppend : ∀ {xs ys : DEntries}, dUniq xs = true → dUniq ys = true →
    (∀ k e, findEntry k xs = some e → findEntry k ys = none) →
    dUniq (dAppend xs ys) = true
  | .nil, ys, _, hy, _ => hy
  | .cons k0 e0 tl, ys, hx, hy, hdisj => by
    obtain ⟨hx1, hx2⟩ := dUniq_cons hx
    rw [dAppend]
    simp only [dUniq, Bool.and_eq_true, Option.isNone_iff_eq_none]
    constructor
    · rw [findEntry_dAppend, hx1]
      exact hdisj k0 e0 (by rw [findEntry, if_pos rfl])
    · refine dUniq_dAppend hx2 hy (fun k e he => ?_)
      refine hdisj k e ?_
      rw [findEntry]
      by_cases hk : k = k0
      · subst hk
        rw [hx1] at he
        exact Option.noConfusion he
      · rw [if_neg hk]
        exact he

/-- The combined edit list of an object diff has pairwise distinct keys. -/
theorem dUniq_objDiff {as bs : JObj} (hsa : sortedO as = true)
    (hsb : sortedO bs = true) :
    dUniq (dAppend (diffEntries as bs) (insEntries as bs)) = true := by
  refine dUniq_dAppend (dUniq_diffEntries hsa) (dUniq_insEntries hsb)
    (fun k e he => ?_)
  by_cases hc : containsKeyJ k as
  · exact findEntry_insEntries_of_contains hc bs
  · rw [findEntry_diffEntries_of_absent] at he
    · exact Option.noConfusion he
    · simp only [containsKeyJ, Option.isSome_iff_exists] at hc
      cases hv : lookupJ k as with
      | none => rfl
      | some v => exact absurd ⟨v, hv⟩ hc

/-! Helpers for empty diffs. -/

theorem diffEntries_eq_nil {as bs : JObj}
    (h : ∀ k v, lookupJ k as = some v →
      ∃ v2, lookupJ k bs = some v2 ∧ diffJ v v2 = none) :
    ∀ (as' : JObj), sortedO as' = true →
    (∀ k v, lookupJ k as' = some v → lookupJ k as = some v) →
    diffEntries as' bs = .nil
  | .nil, _, _ => rfl
  | .cons k0 va0 tl, hs, hsub => by
    obtain ⟨hs1, hs2⟩ := sortedO_cons hs
    have h0 : lookupJ k0 as = some va0 :=
      hsub k0 va0 (by rw [lookupJ_cons, if_pos rfl])
    obtain ⟨v2, hv2, hdv⟩ := h k0 va0 h0
    have hb : lookupJ k0 bs = some v2 := hv2
    simp only [diffEntries, hb, hdv]
    refine diffEntries_eq_nil h tl hs2 (fun k v hv => ?_)
    have hk : k ≠ k0 := by
      intro he
      subst he
      rw [allKeysGt_lookupJ hs1] at hv
      exact Option.noConfusion hv
    exact hsub k v (by rw [lookupJ_cons, if_neg hk]; exact hv)

theorem insEntries_eq_nil {as : JObj} : ∀ (bs : JObj),
    (∀ k v, lookupJ k bs = some v → containsKeyJ k as = true) →
    insEntries as bs = .nil
  | .nil, _ => rfl
  | .cons k0 vb0 tl, h => by
    have hc : containsKeyJ k0 as = true :=
      h k0 vb0 (by rw [lookupJ_cons, if_pos rfl])
    rw [insEntries, if_pos hc]
    refine insEntries_eq_nil tl (fun k v hv => ?_)
    by_cases hk : k = k0
    · subst hk
      exact hc
    · exact h k v (by rw [lookupJ_cons, if_neg hk]; exact hv)

theorem diffEntries_nil_lookup {bs : JObj} : ∀ {as : JObj},
    diffEntries as bs = .nil → ∀ {k va}, lookupJ k as = some va →
    ∃ vb, lookupJ k bs = some vb ∧ diffJ va vb = none
  | .nil, _, k, va, hv => by simp [lookupJ] at hv
  | .cons k0 va0 tl, hnil, k, va, hv => by
    cases hb : lookupJ k0 bs with
    | none =>
      simp only [diffEntries, hb] at hnil
      exact DEntries.noConfusion hnil
    | some vb0 =>
      cases hd : diffJ va0 vb0 with
      | none =>
        simp only [diffEntries, hb, hd] at hnil
        rw [lookupJ_cons] at hv
        by_cases hk : k = k0
        · rw [if_pos hk] at hv
          cases hv
          subst hk
          exact ⟨vb0, hb, hd⟩
        · rw [if_neg hk] at hv
          exact diffEntries_nil_lookup hnil hv
      | some d =>
        simp only [diffEntries, hb, hd] at hnil
        exact DEntries.noConfusion hnil

theorem insEntries_nil_contains {as : JObj} : ∀ {bs : JObj},
    insEntries as bs = .nil → ∀ {k vb}, lookupJ k bs = some vb →
    containsKeyJ k as = true
  | .nil, _, k, vb, hv => by simp [lookupJ] at hv
  | .cons k0 vb0 tl, hnil, k, vb, hv => by
    rw [insEntries] at hnil
    by_cases hc : containsKeyJ k0 as
    · rw [if_pos hc] at hnil
      rw [lookupJ_cons] at hv
      by_cases hk : k = k0
      · subst hk
        exact hc
      · rw [if_neg hk] at hv
        exact insEntries_nil_contains hnil hv
    · rw [if_neg hc] at hnil
      exact DEntries.noConfusion hnil

/-! Sizes, for strong induction over nested values. -/

mutual
/-- Size of a JSON value (positive). -/
def sizeJ : Json → Nat
  | .null => 1
  | .bool _ => 1
  | .num _ => 1
  | .str _ => 1
  | .arr xs => 1 + sizeA xs
  | .obj kvs => 1 + sizeO kvs
/-- Total size of array elements. -/
def sizeA : JArr → Nat
  | .nil => 0
  | .cons x xs => sizeJ x + sizeA xs + 1
/-- Total size of object values. -/
def sizeO : JObj → Nat
  | .nil => 0
  | .cons _ v tl => sizeJ v + sizeO tl + 1
end

theorem sizeJ_pos : ∀ a : Json, 1 ≤ sizeJ a
  | .null => le_refl 1
  | .bool _ => le_refl 1
  | .num _ => le_refl 1
  | .str _ => le_refl 1
  | .arr _ => Nat.le_add_right 1 _
  | .obj _ => Nat.le_add_right 1 _

theorem lookupJ_sizeJ {k : String} : ∀ {o : JObj} {v : Json},
    lookupJ k o = some v → sizeJ v ≤ sizeO o
  | .nil, v, h => by simp [lookupJ] at h
  | .cons k0 v0 tl, v, h => by
    rw [lookupJ_cons] at h
    by_cases hk : k = k0
    · rw [if_pos hk] at h
      cases h
      rw [sizeO]
      omega
    · rw [if_neg hk] at h
      have := lookupJ_sizeJ h
      rw [sizeO]
      omega

/-! The round-trip property of the diff engine. -/

/-- Diff round trip at a pair: an empty diff means equality, and a
non-empty diff patches forward and unpatches backward exactly. -/
def RoundOK (a b : Json) : Prop :=
  (a = b → diffJ a b = none) ∧ (diffJ a b = none → a = b) ∧
  (∀ d, diffJ a b = some d → patch a d = b ∧ unpatch b d = a)

theorem roundOK_of_none {a b : Json} (heq : a = b) (hd : diffJ a b = none) :
    RoundOK a b :=
  ⟨fun _ => hd, fun _ => heq, fun d hdd => by
    rw [hd] at hdd
    exact Option.noConfusion hdd⟩

theorem roundOK_of_replace {a b : Json} (hne : a ≠ b)
    (hd : diffJ a b = some (.replace a b)) : RoundOK a b := by
  refine ⟨fun h => absurd h hne, fun h => ?_, fun d hdd => ?_⟩
  · rw [h] at hd
    exact Option.noConfusion hd
  · rw [hd] at hdd
    injection hdd with h2
    subst h2
    exact ⟨rfl, rfl⟩

theorem diff_round : ∀ (n : Nat) (a b : Json), sizeJ a + sizeJ b ≤ n →
    wfJ a = true → wfJ b = true → RoundOK a b
  | 0, a, b, hn, _, _ => by
    have h1 := sizeJ_pos a
    have h2 := sizeJ_pos b
    omega
  | n + 1, Json.obj as, Json.obj bs, hn, ha, hb => by
    have hwa : wfO as = true := ha
    have hwb : wfO bs = true := hb
    have hsa : sortedO as = true := wfO_sortedO hwa
    have hsb : sortedO bs = true := wfO_sortedO hwb
    have hsza : sizeJ (Json.obj as) = 1 + sizeO as := rfl
    have hszb : sizeJ (Json.obj bs) = 1 + sizeO bs := rfl
    have IHkv : ∀ {k va vb}, lookupJ k as = some va → lookupJ k bs = some vb →
        RoundOK va vb := by
      intro k va vb hva hvb
      refine diff_round n va vb ?_ (lookupJ_wfJ hwa hva) (lookupJ_wfJ hwb hvb)
      have h1 := lookupJ_sizeJ hva
      have h2 := lookupJ_sizeJ hvb
      omega
    refine ⟨fun heq => ?_, fun hnone => ?_, fun d hd => ?_⟩
    · injection heq with heq
      subst heq
      have hdn : diffEntries as as = DEntries.nil := by
        refine diffEntries_eq_nil (fun k v hv => ⟨v, hv, ?_⟩) as hsa
          (fun _ _ hv => hv)
        exact (IHkv hv hv).1 rfl
      have hin : insEntries as as = DEntries.nil :=
        insEntries_eq_nil as (fun k v hv => by simp [containsKeyJ, hv])
      simp only [diffJ, hdn, hin, dAppend]
    · cases hE : dAppend (diffEntries as bs) (insEntries as bs) with
      | cons k0 e0 tl =>
        simp only [diffJ, hE] at hnone
        exact Option.noConfusion hnone
      | nil =>
        obtain ⟨hEd, hEi⟩ := dAppend_eq_nil hE
        refine congrArg Json.obj (jobj_ext_sorted as bs hsa hsb (fun k => ?_))
        cases hva : lookupJ k as with
        | some va =>
          obtain ⟨vb, hvb, hdv⟩ := diffEntries_nil_lookup hEd hva
          rw [hvb, (IHkv hva hvb).2.1 hdv]
        | none =>
          cases hvb : lookupJ k bs with
          | none => rfl
          | some vb =>
            have hc := insEntries_nil_contains hEi hvb
            rw [containsKeyJ, hva] at hc
            exact Bool.noConfusion hc
    · cases hE : dAppend (diffEntries as bs) (insEntries as bs) with
      | nil =>
        simp only [diffJ, hE] at hd
        exact Option.noConfusion hd
      | cons k0 e0 tl =>
        simp only [diffJ, hE] at hd
        injection hd with hd2
        subst hd2
        rw [← hE]
        have hdU : dUniq (dAppend (diffEntries as bs) (insEntries as bs)) = true :=
          dUniq_objDiff hsa hsb
        constructor
        · show Json.obj (patchEntries as
            (dAppend (diffEntries as bs) (insEntries as bs))) = Json.obj bs
          refine congrArg Json.obj (jobj_ext_sorted _ bs
            (sortedO_patchEntries _ hsa) hsb (fun k => ?_))
          rw [lookupJ_patchEntries k _ hdU hsa, findEntry_dAppend,
            findEntry_diffEntries k hsa, findEntry_insEntries k]
          cases hva : lookupJ k as with
          | some va =>
            cases hvb : lookupJ k bs with
            | some vb =>
              cases hdv : diffJ va vb with
              | none =>
                have hcon : containsKeyJ k as = true := by
                  rw [containsKeyJ, hva]
                  rfl
                simp only [hdv, Option.map_none', hcon, if_true]
                exact congrArg some ((IHkv hva hvb).2.1 hdv)
              | some dv =>
                simp only [hdv, Option.map_some']
                exact congrArg some (((IHkv hva hvb).2.2 dv hdv).1)
            | none => rfl
          | none =>
            have hcon : containsKeyJ k as = false := by
              rw [containsKeyJ, hva]
              rfl
            cases hvb : lookupJ k bs with
            | some vb =>
              rw [hcon]
              rfl
            | none =>
              rw [hcon]
              rfl
        · show Json.obj (unpatchEntries bs
            (dAppend (diffEntries as bs) (insEntries as bs))) = Json.obj as
          refine congrArg Json.obj (jobj_ext_sorted _ as
            (sortedO_unpatchEntries _ hsb) hsa (fun k => ?_))
          rw [lookupJ_unpatchEntries k _ hdU hsb, findEntry_dAppend,
            findEntry_diffEntries k hsa, findEntry_insEntries k]
          cases hva : lookupJ k as with
          | some va =>
            cases hvb : lookupJ k bs with
            | some vb =>
              cases hdv : diffJ va vb with
              | none =>
                have hcon : containsKeyJ k as = true := by
                  rw [containsKeyJ, hva]
                  rfl
                simp only [hdv, Option.map_none', hcon, if_true]
                exact congrArg some ((IHkv hva hvb).2.1 hdv).symm
              | some dv =>
                simp only [hdv, Option.map_some']
                exact congrArg some (((IHkv hva hvb).2.2 dv hdv).2)
            | none => rfl
          | none =>
            have hcon : containsKeyJ k as = false := by
              rw [containsKeyJ, hva]
              rfl
            cases hvb : lookupJ k bs with
            | some vb =>
              rw [hcon]
              rfl
            | none =>
              rw [hcon]
              rfl
  | n + 1, Json.null, Json.null, _, _, _ => roundOK_of_none rfl rfl
  | n + 1, Json.bool x, Json.bool y, _, _, _ => by
    by_cases hxy : x = y
    · subst hxy
      exact roundOK_of_none rfl (by simp [diffJ])
    · exact roundOK_of_replace (by simp [hxy]) (by simp [diffJ, hxy])
  | n + 1, Json.num x, Json.num y, _, _, _ => by
    by_cases hxy : x = y
    · subst hxy
      exact roundOK_of_none rfl (by simp [diffJ])
    · exact roundOK_of_replace (by simp [hxy]) (by simp [diffJ, hxy])
  | n + 1, Json.str x, Json.str y, _, _, _ => by
    by_cases hxy : x = y
    · subst hxy
      exact roundOK_of_none rfl (by simp [diffJ])
    · exact roundOK_of_replace (by simp [hxy]) (by simp [diffJ, hxy])
  | n + 1, Json.arr x, Json.arr y, _, _, _ => by
    by_cases hxy : x = y
    · subst hxy
      exact roundOK_of_none rfl (by simp [diffJ])
    · exact roundOK_of_replace (by simp [hxy]) (by simp [diffJ, hxy])
  | n + 1, Json.null, Json.bool _, _, _, _ => roundOK_of_replace (by simp) rfl
  | n + 1, Json.null, Json.num _, _, _, _ => roundOK_of_replace (by simp) rfl
  | n + 1, Json.null, Json.str _, _, _, _ => roundOK_of_replace (by simp) rfl
  | n + 1, Json.null, Json.arr _, _, _, _ => roundOK_of_replace (by simp) rfl
  | n + 1, Json.null, Json.obj _, _, _, _ => roundOK_of_replace (by simp) rfl
  | n + 1, Json.bool _, Json.null, _, _, _ => roundOK_of_replace (by simp) rfl
  | n + 1, Json.bool _, Json.num _, _, _, _ => roundOK_of_replace (by simp) rfl
  | n + 1, Json.bool _, Json.str _, _, _, _ => roundOK_of_replace (by simp) rfl
  | n + 1, Json.bool _, Json.arr _, _, _, _ => roundOK_of_replace (by simp) rfl
  | n + 1, Json.bool _, Json.obj _, _, _, _ => roundOK_of_replace (by simp) rfl
  | n + 1, Json.num _, Json.null, _, _, _ => roundOK_of_replace (by simp) rfl
  | n + 1, Json.num _, Json.bool _, _, _, _ => roundOK_of_replace (by simp) rfl
  | n + 1, Json.num _, Json.str _, _, _, _ => roundOK_of_replace (by simp) rfl
  | n + 1, Json.num _, Json.arr _, _, _, _ => roundOK_of_replace (by simp) rfl
  | n + 1, Json.num _, Json.obj _, _, _, _ => roundOK_of_replace (by simp) rfl
  | n + 1, Json.str _, Json.null, _, _, _ => roundOK_of_replace (by simp) rfl
  | n + 1, Json.str _, Json.bool _, _, _, _ => roundOK_of_replace (by simp) rfl
  | n + 1, Json.str _, Json.num _, _, _, _ => roundOK_of_replace (by simp) rfl
  | n + 1, Json.str _, Json.arr _, _, _, _ => roundOK_of_replace (by simp) rfl
  | n + 1, Json.str _, Json.obj _, _, _, _ => roundOK_of_replace (by simp) rfl
  | n + 1, Json.arr _, Json.null, _, _, _ => roundOK_of_replace (by simp) rfl
  | n + 1, Json.arr _, Json.bool _, _, _, _ => roundOK_of_replace (by simp) rfl
  | n + 1, Json.arr _, Json.num _, _, _, _ => roundOK_of_replace (by simp) rfl
  | n + 1, Json.arr _, Json.str _, _, _, _ => roundOK_of_replace (by simp) rfl
  | n + 1, Json.arr _, Json.obj _, _, _, _ => roundOK_of_replace (by simp) rfl
  | n + 1, Json.obj _, Json.null, _, _, _ => roundOK_of_replace (by simp) rfl
  | n + 1, Json.obj _, Json.bool _, _, _, _ => roundOK_of_replace (by simp) rfl
  | n + 1, Json.obj _, Json.num _, _, _, _ => roundOK_of_replace (by simp) rfl
  | n + 1, Json.obj _, Json.str _, _, _, _ => roundOK_of_replace (by simp) rfl
  | n + 1, Json.obj _, Json.arr _, _, _, _ => roundOK_of_replace (by simp) rfl

/-- An empty diff characterizes equality (for canonical values). -/
theorem diffJ_none_iff {a b : Json} (ha : wfJ a = true) (hb : wfJ b = true) :
    diffJ a b = none ↔ a = b :=
  have h := diff_round (sizeJ a + sizeJ b) a b (le_refl _) ha hb
  ⟨h.2.1, h.1⟩

/-- Applying a diff forward transforms the first document into the second. -/
theorem patch_diffJ {a b : Json} {d : Diff} (ha : wfJ a = true)
    (hb : wfJ b = true) (hd : diffJ a b = some d) : patch a d = b :=
  ((diff_round (sizeJ a + sizeJ b) a b (le_refl _) ha hb).2.2 d hd).1

/-- Applying a diff in reverse transforms the second document into the
first. -/
theorem unpatch_diffJ {a b : Json} {d : Diff} (ha : wfJ a = true)
    (hb : wfJ b = true) (hd : diffJ a b = some d) : unpatch b d = a :=
  ((diff_round (sizeJ a + sizeJ b) a b (le_refl _) ha hb).2.2 d hd).2

/-! ## The server state (`abr_server/state.py`, class `State`)

The in-memory fields of the Python `State` object: `_state` (the committed
document), `_pending_state`, and the two history stacks.  Python appends
and pops diffs at the end of its lists; here the top of each stack is the
list head.  File-system side effects (`make_backup`, the schema fetch) and
the change notifications (`notifier.notify`) touch none of these fields and
are modelled separately where a claim needs them.

Schema validation (`jsonschema.validate`, a third-party library) is
modelled as a pure function from a document to an optional validation
error carrying the error's `path` and `message`.  The source retries
validation up to ten times, but only on `RuntimeError` (a concurrency
artifact); a `ValidationError` escapes the retry loop on the first
iteration, so with a pure validator one evaluation is faithful. -/

/-- A `jsonschema.ValidationError`: its `path` and `message`. -/
structure Verr where
  path : List String
  message : String
  deriving DecidableEq

/-- A pure schema validator: `none` means the document validates. -/
def Validator := Json → Option Verr

/-- The in-memory fields of `State` (`state.py`, `__init__`). -/
structure SrvState where
  state : Json
  pending_state : Json
  undo_stack : List Diff
  redo_stack : List Diff
  deriving DecidableEq

/-- The fresh state built by `State.__init__`: a blank starting document,
pending copy equal to it, and empty history stacks. -/
def init_state (default_state : Json) : SrvState :=
  { state := default_state, pending_state := default_state,
    undo_stack := [], redo_stack := [] }

/-- `State.validate_and_backup` (state.py lines 107-142): validate the
pending document; on success write a backup (a file side effect, not part
of these fields), diff pending against committed, and if the diff is
non-empty push it on the undo stack, clear the redo stack and commit the
pending copy; on a validation error discard the pending copy and return
the error message naming the offending path and message. -/
def validate_and_backup (v : Validator) (s : SrvState) : SrvState × String :=
  match v s.pending_state with
  | none =>
    match diffJ s.pending_state s.state with
    | some state_diff =>
      ({ state := s.pending_state, pending_state := s.pending_state,
         undo_stack := state_diff :: s.undo_stack, redo_stack := [] }, "")
    | none => (s, "")
  | some e =>
    ({ s with pending_state := s.state },
      "Schema validation failed - " ++ String.intercalate "/" e.path
        ++ ": " ++ e.message)

/-- A Python exception kind raised while indexing into the document. -/
inductive PyErr where
  | keyError : PyErr
  | typeError : PyErr
  deriving DecidableEq

/-- Python `sub_state[part]` with a string subscript: a dict looks the key
up (`KeyError` when absent); lists and strings reject string subscripts
and scalars are not subscriptable (`TypeError`). -/
def indexJ : Json → String → Except PyErr Json
  | .obj kvs, p =>
    match lookupJ p kvs with
    | some v => .ok v
    | none => .error .keyError
  | _, _ => .error .typeError

/-- `State._get_path` (lines 152-160). -/
def get_path_aux : Json → List String → Except PyErr Json
  | sub_state, [] => .ok sub_state
  | sub_state, [p] => indexJ sub_state p
  | sub_state, p :: rest =>
    match indexJ sub_state p with
    | .ok v => get_path_aux v rest
    | .error e => .error e

/-- `State.get_path` (lines 145-150): reads the committed document under
the state lock and catches only `KeyError`.  `some none` is the Python
`None` result; the outer `none` is an uncaught `TypeError` propagating out
of the method. -/
def get_path (s : SrvState) (item_path : List String) : Option (Option Json) :=
  match get_path_aux s.state item_path with
  | .ok v => some (some v)
  | .error .keyError => some none
  | .error .typeError => none

/-- `State._set_path` (lines 194-206), as a pure function on the pending
document: `none` is an uncaught `TypeError` (assigning into a non-dict).
The source mutates intermediate dicts in place; a raise can only happen
before any `sub_state[root] = {}` creation (descending into fresh dicts
never raises), so an exception leaves the pending document unchanged. -/
def set_path_aux : Json → List String → Json → Option Json
  | sub_state, [p], new_value =>
    match sub_state with
    | .obj kvs => some (.obj (insertKV p new_value kvs))
    | _ => none
  | sub_state, p :: rest, new_value =>
    match sub_state with
    | .obj kvs =>
      match lookupJ p kvs with
      | some child =>
        (set_path_aux child rest new_value).map
          (fun c => .obj (insertKV p c kvs))
      | none =>
        (set_path_aux (.obj .nil) rest new_value).map
          (fun c => .obj (insertKV p c kvs))
    | _ => none
  | _, [], _ => none

/-- `State.set_path` (lines 162-192).  The result's second component is
the returned message; `none` models the uncaught exception (the HTTP
request errors, the state fields are unchanged).  The trailing
`DOWNLOAD_VISASSETS` block touches none of these fields; the module-level
effect of `download_visasset` is modelled with the asset manager below. -/
def set_path (v : Validator) (s : SrvState) (item_path : List String)
    (new_value : Json) : SrvState × Option String :=
  match (if item_path.isEmpty then some new_value
         else set_path_aux s.pending_state item_path new_value) with
  | none => (s, none)
  | some pending2 =>
    let r := validate_and_backup v { s with pending_state := pending2 }
    (r.1, some r.2)

/-- Python membership `x in list`. -/
def memberA (x : Json) : JArr → Bool
  | .nil => false
  | .cons y ys => x = y || memberA x ys

/-- Python substring membership `needle in hay` on strings. -/
def pyInStr (needle hay : String) : Bool :=
  needle.isEmpty || (hay.splitOn needle).length > 1

/-- `State._remove_path` (lines 215-223): delete the node at the path from
the pending copy.  `del` of a missing final key raises `KeyError`; a
missing intermediate key is a silent no-op (`if root in sub_state`);
descending into a non-dict raises `TypeError`.  `none` models an uncaught
exception, which leaves the pending document unchanged (the only mutation
is the final `del`). -/
def remove_path_aux : Json → List String → Option Json
  | sub_state, [p] =>
    match sub_state with
    | .obj kvs =>
      if containsKeyJ p kvs then some (.obj (eraseKV p kvs)) else none
    | _ => none
  | sub_state, p :: rest =>
    match sub_state with
    | .obj kvs =>
      match lookupJ p kvs with
      | some child =>
        (remove_path_aux child rest).map (fun c => .obj (insertKV p c kvs))
      | none => some sub_state
    | .arr xs => if memberA (.str p) xs then none else some sub_state
    | .str st => if pyInStr p st then none else some sub_state
    | _ => none
  | _, [] => none

/-- `State.remove_path` (lines 208-213): an empty path resets the pending
copy to the default document, then the commit protocol runs. -/
def remove_path (v : Validator) (default_state : Json) (s : SrvState)
    (item_path : List String) : SrvState × Option String :=
  match (if item_path.isEmpty then some default_state
         else remove_path_aux s.pending_state item_path) with
  | none => (s, none)
  | some pending2 =>
    let r := validate_and_backup v { s with pending_state := pending2 }
    (r.1, some r.2)

mutual
/-- `State._remove_all` (lines 229-238) on a dict: delete the key if
present, then recurse into every remaining value that is itself a dict
(values inside lists are never visited, because the recursion is guarded
by `isinstance(sub_state[sub_value], dict)`). -/
def remove_all_obj (value : String) : JObj → JObj
  | .nil => .nil
  | .cons k v tl =>
    if k = value then remove_all_obj value tl
    else .cons k (remove_all_val value v) (remove_all_obj value tl)
/-- The per-value step of `_remove_all`: recurse only into dicts
(`isinstance(sub_state[sub_value], dict)`), leave anything else alone. -/
def remove_all_val (value : String) : Json → Json
  | .obj kvs => .obj (remove_all_obj value kvs)
  | w => w
end

/-- The pending document `State.remove_all` builds from a deep copy of the
committed document: for a dict, `_remove_all` of the copy; a non-dict
committed document raises before the assignment (`len` of a number raises
`TypeError`; indexing a non-empty string or list with its own items
raises), except the degenerate empty string / empty list, which
`_remove_all` returns unchanged. -/
def remove_all_pending (value : String) : Json → Option Json
  | .obj kvs => some (.obj (remove_all_obj value kvs))
  | .str st => if st.isEmpty then some (.str st) else none
  | .arr .nil => some (.arr .nil)
  | _ => none

/-- `State.remove_all` (lines 225-227): seed the pending copy from a deep
copy of the committed document, delete all (dict-spine) occurrences, and
run the commit protocol once; the commit's message is discarded (the
method returns `None`, modelled as `some ""`).  A non-dict committed
document raises inside `_remove_all` before the pending copy is replaced
(`len` on a number raises, a non-empty string or list raises while
indexing), except for the degenerate empty string / empty list, which are
returned unchanged. -/
def remove_all (v : Validator) (s : SrvState) (value : String) :
    SrvState × Option String :=
  match remove_all_pending value s.state with
  | none => (s, none)
  | some pending2 =>
    ((validate_and_backup v { s with pending_state := pending2 }).1, some "")

/-- `State.undo` (lines 288-308): pop the last diff (list head here),
patch the committed document with it, and push the diff on the redo
stack.  Both the committed and pending documents become the undone
state. -/
def undo (s : SrvState) : SrvState × String :=
  match s.undo_stack with
  | [] => (s, "Nothing to undo")
  | diff_w_previous :: rest =>
    let undone_state := patch s.state diff_w_previous
    ({ state := undone_state, pending_state := undone_state,
       undo_stack := rest,
       redo_stack := diff_w_previous :: s.redo_stack }, "")

/-- `State.redo` (lines 310-331): pop the last redo diff, unpatch the
committed document with it, and push the diff back on the undo stack. -/
def redo (s : SrvState) : SrvState × String :=
  match s.redo_stack with
  | [] => (s, "Nothing to redo")
  | diff_w_next :: rest =>
    let undone_state := unpatch s.state diff_w_next
    ({ state := undone_state, pending_state := undone_state,
       undo_stack := diff_w_next :: s.undo_stack,
       redo_stack := rest }, "")

/-- One client-visible mutation of the state API. -/
inductive Op where
  | set (path : List String) (value : Json) : Op
  | remove (path : List String) : Op
  | removeAll (key : String) : Op
  | undoOp : Op
  | redoOp : Op
  deriving DecidableEq

/-- Execute one operation; the second component is the returned message
(`none` = the request raised; the state fields are unchanged in that
case). -/
def exec_op (v : Validator) (default_state : Json) (s : SrvState) :
    Op → SrvState × Option String
  | .set path value => set_path v s path value
  | .remove path => remove_path v default_state s path
  | .removeAll key => remove_all v s key
  | .undoOp => ((undo s).1, some (undo s).2)
  | .redoOp => ((redo s).1, some (redo s).2)

/-- Run a sequence of operations. -/
def run_ops (v : Validator) (default_state : Json) (s : SrvState)
    (ops : List Op) : SrvState :=
  ops.foldl (fun s op => (exec_op v default_state s op).1) s

/-- All operations in the sequence return the empty (success) message. -/
def ops_succeed (v : Validator) (default_state : Json) :
    SrvState → List Op → Bool
  | _, [] => true
  | s, op :: rest =>
    ((exec_op v default_state s op).2 == some "") &&
      ops_succeed v default_state (exec_op v default_state s op).1 rest

/-- Values written by `set` are canonical representatives. -/
def op_wf : Op → Bool
  | .set _ value => wfJ value
  | _ => true

/-- Only `set`/`remove` operations (the scope of the round-trip claim). -/
def set_remove_only : Op → Bool
  | .set _ _ => true
  | .remove _ => true
  | _ => false

/-- States reachable from process start through the state API. -/
inductive Reachable (v : Validator) (default_state : Json) : SrvState → Prop where
  | init : wfJ default_state = true → v default_state = none →
      Reachable v default_state (init_state default_state)
  | step (s : SrvState) (op : Op) : Reachable v default_state s →
      op_wf op = true →
      Reachable v default_state (exec_op v default_state s op).1

/-! Canonicity is preserved by every mutation of the pending document. -/

theorem wfJ_set_path_aux : ∀ (path : List String) {cur value p2 : Json},
    wfJ cur = true → wfJ value = true →
    set_path_aux cur path value = some p2 → wfJ p2 = true
  | [], _, _, _, _, _, h => by simp [set_path_aux] at h
  | [p], cur, value, p2, hc, hv, h => by
    cases cur with
    | obj kvs =>
      simp only [set_path_aux] at h
      cases h
      exact wfO_insertKV hv hc
    | null => simp [set_path_aux] at h
    | bool b => simp [set_path_aux] at h
    | num n => simp [set_path_aux] at h
    | str st => simp [set_path_aux] at h
    | arr xs => simp [set_path_aux] at h
  | p :: q :: rest, cur, value, p2, hc, hv, h => by
    cases cur with
    | obj kvs =>
      simp only [set_path_aux] at h
      cases hl : lookupJ p kvs with
      | some child =>
        simp only [hl] at h
        cases hin : set_path_aux child (q :: rest) value with
        | none =>
          simp only [hin, Option.map_none'] at h
          exact Option.noConfusion h
        | some c =>
          simp only [hin, Option.map_some'] at h
          cases h
          exact wfO_insertKV
            (wfJ_set_path_aux (q :: rest) (lookupJ_wfJ hc hl) hv hin) hc
      | none =>
        simp only [hl] at h
        cases hin : set_path_aux (.obj .nil) (q :: rest) value with
        | none =>
          simp only [hin, Option.map_none'] at h
          exact Option.noConfusion h
        | some c =>
          simp only [hin, Option.map_some'] at h
          cases h
          exact wfO_insertKV
            (wfJ_set_path_aux (q :: rest)
              (show wfJ (Json.obj JObj.nil) = true from rfl) hv hin) hc
    | null => simp [set_path_aux] at h
    | bool b => simp [set_path_aux] at h
    | num n => simp [set_path_aux] at h
    | str st => simp [set_path_aux] at h
    | arr xs => simp [set_path_aux] at h

theorem wfJ_remove_path_aux : ∀ (path : List String) {cur p2 : Json},
    wfJ cur = true → remove_path_aux cur path = some p2 → wfJ p2 = true
  | [], _, _, _, h => by simp [remove_path_aux] at h
  | [p], cur, p2, hc, h => by
    cases cur with
    | obj kvs =>
      simp only [remove_path_aux] at h
      by_cases hcon : containsKeyJ p kvs
      · rw [if_pos hcon] at h
        cases h
        exact wfO_eraseKV hc
      · rw [if_neg hcon] at h
        exact Option.noConfusion h
    | null => simp [remove_path_aux] at h
    | bool b => simp [remove_path_aux] at h
    | num n => simp [remove_path_aux] at h
    | str st => simp [remove_path_aux] at h
    | arr xs => simp [remove_path_aux] at h
  | p :: q :: rest, cur, p2, hc, h => by
    cases cur with
    | obj kvs =>
      simp only [remove_path_aux] at h
      cases hl : lookupJ p kvs with
      | some child =>
        simp only [hl] at h
        cases hin : remove_path_aux child (q :: rest) with
        | none =>
          simp only [hin, Option.map_none'] at h
          exact Option.noConfusion h
        | some c =>
          simp only [hin, Option.map_some'] at h
          cases h
          exact wfO_insertKV
            (wfJ_remove_path_aux (q :: rest) (lookupJ_wfJ hc hl) hin) hc
      | none =>
        simp only [hl] at h
        cases h
        exact hc
    | arr xs =>
      simp only [remove_path_aux] at h
      by_cases hm : memberA (.str p) xs
      · rw [if_pos hm] at h
        exact Option.noConfusion h
      · rw [if_neg hm] at h
        cases h
        exact hc
    | str st =>
      simp only [remove_path_aux] at h
      by_cases hm : pyInStr p st
      · rw [if_pos hm] at h
        exact Option.noConfusion h
      · rw [if_neg hm] at h
        cases h
        exact hc
    | null => simp [remove_path_aux] at h
    | bool b => simp [remove_path_aux] at h
    | num n => simp [remove_path_aux] at h

theorem allKeysGt_remove_all_obj {a value : String} : ∀ {kvs : JObj},
    allKeysGt a kvs = true → allKeysGt a (remove_all_obj value kvs) = true
  | .nil, _ => rfl
  | .cons k v tl, h => by
    simp only [allKeysGt, Bool.and_eq_true] at h
    by_cases hk : k = value
    · simp only [remove_all_obj, if_pos hk]
      exact allKeysGt_remove_all_obj h.2
    · simp only [remove_all_obj, if_neg hk, allKeysGt, Bool.and_eq_true]
      exact ⟨h.1, allKeysGt_remove_all_obj h.2⟩

theorem wfO_remove_all_obj (value : String) : ∀ {kvs : JObj},
    wfO kvs = true → wfO (remove_all_obj value kvs) = true
  | .nil, _ => rfl
  | .cons k v tl, h => by
    obtain ⟨h1, h2, h3⟩ := wfO_cons h
    by_cases hk : k = value
    · simp only [remove_all_obj, if_pos hk]
      exact wfO_remove_all_obj value h3
    · simp only [remove_all_obj, if_neg hk, wfO, Bool.and_eq_true]
      refine ⟨⟨allKeysGt_remove_all_obj h1, ?_⟩, wfO_remove_all_obj value h3⟩
      cases v with
      | obj kvs2 =>
        simp only [remove_all_val]
        exact wfO_remove_all_obj value h2
      | null => exact h2
      | bool b => exact h2
      | num n => exact h2
      | str st => exact h2
      | arr xs => exact h2

/-! The reachability invariant: the committed document is canonical and
valid, the pending copy equals it between requests, and every diff on
either history stack reconstructs a canonical, valid, previously committed
document. -/

/-- Each undo-stack diff (top first) leads from the current committed
document back through the chain of valid previously committed documents. -/
def UndoChain (v : Validator) : Json → List Diff → Prop
  | _, [] => True
  | c, d :: rest => ∃ dprev, wfJ dprev = true ∧ v dprev = none ∧
      diffJ c dprev = some d ∧ UndoChain v dprev rest

/-- Each redo-stack diff (top first) leads from the current committed
document forward through the chain of valid undone documents. -/
def RedoChain (v : Validator) : Json → List Diff → Prop
  | _, [] => True
  | c, d :: rest => ∃ dnext, wfJ dnext = true ∧ v dnext = none ∧
      diffJ dnext c = some d ∧ RedoChain v dnext rest

/-- The invariant preserved by every state operation. -/
def Inv (v : Validator) (default_state : Json) (s : SrvState) : Prop :=
  wfJ default_state = true ∧ wfJ s.state = true ∧
  s.pending_state = s.state ∧ v s.state = none ∧
  UndoChain v s.state s.undo_stack ∧ RedoChain v s.state s.redo_stack

theorem inv_init {v : Validator} {default_state : Json}
    (hwf : wfJ default_state = true) (hv : v default_state = none) :
    Inv v default_state (init_state default_state) :=
  ⟨hwf, hwf, rfl, hv, trivial, trivial⟩

theorem inv_validate_and_backup {v : Validator} {dflt : Json} {s : SrvState}
    (hInv : Inv v dflt s) {p2 : Json} (hwf2 : wfJ p2 = true) :
    Inv v dflt (validate_and_backup v { s with pending_state := p2 }).1 := by
  obtain ⟨hd, hwfs, hps, hvs, hu, hr⟩ := hInv
  simp only [validate_and_backup]
  cases hv2 : v p2 with
  | some e => exact ⟨hd, hwfs, rfl, hvs, hu, hr⟩
  | none =>
    cases hdq : diffJ p2 s.state with
    | none =>
      have : p2 = s.state := (diffJ_none_iff hwf2 hwfs).1 hdq
      exact ⟨hd, hwfs, this, hvs, hu, hr⟩
    | some d =>
      exact ⟨hd, hwf2, rfl, hv2, ⟨s.state, hwfs, hvs, hdq, hu⟩, trivial⟩

theorem inv_exec_op {v : Validator} {dflt : Json} {s : SrvState} (op : Op)
    (hInv : Inv v dflt s) (hop : op_wf op = true) :
    Inv v dflt (exec_op v dflt s op).1 := by
  obtain ⟨hd, hwfs, hps, hvs, hu, hr⟩ := hInv
  cases op with
  | set path value =>
    simp only [exec_op, set_path]
    cases hp : (if path.isEmpty then some value
                else set_path_aux s.pending_state path value) with
    | none => exact ⟨hd, hwfs, hps, hvs, hu, hr⟩
    | some p2 =>
      refine inv_validate_and_backup ⟨hd, hwfs, hps, hvs, hu, hr⟩ ?_
      by_cases hpe : path.isEmpty
      · rw [if_pos hpe] at hp
        cases hp
        exact hop
      · rw [if_neg hpe] at hp
        exact wfJ_set_path_aux path (hps ▸ hwfs) hop hp
  | remove path =>
    simp only [exec_op, remove_path]
    cases hp : (if path.isEmpty then some dflt
                else remove_path_aux s.pending_state path) with
    | none => exact ⟨hd, hwfs, hps, hvs, hu, hr⟩
    | some p2 =>
      refine inv_validate_and_backup ⟨hd, hwfs, hps, hvs, hu, hr⟩ ?_
      by_cases hpe : path.isEmpty
      · rw [if_pos hpe] at hp
        cases hp
        exact hd
      · rw [if_neg hpe] at hp
        exact wfJ_remove_path_aux path (hps ▸ hwfs) hp
  | removeAll key =>
    simp only [exec_op, remove_all]
    cases hp : remove_all_pending key s.state with
    | none => exact ⟨hd, hwfs, hps, hvs, hu, hr⟩
    | some p2 =>
      refine inv_validate_and_backup ⟨hd, hwfs, hps, hvs, hu, hr⟩ ?_
      cases hst : s.state with
      | obj kvs =>
        rw [hst] at hwfs hp
        simp only [remove_all_pending] at hp
        cases hp
        exact wfO_remove_all_obj key hwfs
      | str st =>
        rw [hst] at hwfs hp
        simp only [remove_all_pending] at hp
        by_cases he : st.isEmpty
        · rw [if_pos he] at hp
          cases hp
          exact hwfs
        · rw [if_neg he] at hp
          exact Option.noConfusion hp
      | arr xs =>
        rw [hst] at hwfs hp
        cases xs with
        | nil =>
          simp only [remove_all_pending] at hp
          cases hp
          exact hwfs
        | cons x tl =>
          simp only [remove_all_pending] at hp
          exact Option.noConfusion hp
      | null =>
        rw [hst] at hp
        simp only [remove_all_pending] at hp
        exact Option.noConfusion hp
      | bool b =>
        rw [hst] at hp
        simp only [remove_all_pending] at hp
        exact Option.noConfusion hp
      | num n =>
        rw [hst] at hp
        simp only [remove_all_pending] at hp
        exact Option.noConfusion hp
  | undoOp =>
    simp only [exec_op]
    cases hus : s.undo_stack with
    | nil =>
      simp only [undo, hus]
      exact ⟨hd, hwfs, hps, hvs, hus ▸ hu, hr⟩
    | cons d rest =>
      rw [hus] at hu
      obtain ⟨dprev, hwp, hvp, hdp, hchain⟩ := hu
      have hpatch : patch s.state d = dprev := patch_diffJ hwfs hwp hdp
      simp only [undo, hus, hpatch]
      exact ⟨hd, hwp, rfl, hvp, hchain, ⟨s.state, hwfs, hvs, hdp, hr⟩⟩
  | redoOp =>
    simp only [exec_op]
    cases hrs : s.redo_stack with
    | nil =>
      simp only [redo, hrs]
      exact ⟨hd, hwfs, hps, hvs, hu, hrs ▸ hr⟩
    | cons d rest =>
      rw [hrs] at hr
      obtain ⟨dnext, hwn, hvn, hdn, hchain⟩ := hr
      have hunpatch : unpatch s.state d = dnext := unpatch_diffJ hwn hwfs hdn
      simp only [redo, hrs, hunpatch]
      exact ⟨hd, hwn, rfl, hvn, ⟨s.state, hwfs, hvs, hdn, hu⟩, hchain⟩

theorem reachable_inv {v : Validator} {dflt : Json} {s : SrvState}
    (h : Reachable v dflt s) : Inv v dflt s := by
  induction h with
  | init h1 h2 => exact inv_init h1 h2
  | step s op hre hop ih => exact inv_exec_op op ih hop

/-! Concrete instances used by the witnesses: a validator standing for a
schema that accepts exactly the JSON objects, and the blank starting
document `{"version": <default>}`. -/

/-- An example schema validator: accepts any object, rejects the rest. -/
def objValidator : Validator := fun j =>
  match j with
  | .obj _ => none
  | _ => some { path := [], message := "expected object" }

/-- The blank starting document. -/
def defaultDoc : Json := .obj (.cons "version" (.str "0.2.0") .nil)

/-- C2: a `set` whose pending result fails schema validation returns the
error string naming the offending path and message, and leaves the
committed Document, the UndoStack and the RedoStack exactly as they were
before the call; only the pending copy is discarded (reset to a copy of
the committed Document). -/
theorem claim_C2_failed_set_atomic (v : Validator) (s : SrvState)
    (item_path : List String) (new_value p2 : Json) (e : Verr)
    (hp : (if item_path.isEmpty then some new_value
           else set_path_aux s.pending_state item_path new_value) = some p2)
    (he : v p2 = some e) :
    set_path v s item_path new_value =
      ({ s with pending_state := s.state },
        some ("Schema validation failed - "
          ++ String.intercalate "/" e.path ++ ": " ++ e.message)) := by
  simp only [set_path, hp, validate_and_backup, he]

theorem claim_C2_witness :
    ((if ([] : List String).isEmpty then some (Json.num 3)
      else set_path_aux (init_state defaultDoc).pending_state [] (Json.num 3))
        = some (Json.num 3)) ∧
    objValidator (Json.num 3) = some ⟨[], "expected object"⟩ ∧
    set_path objValidator (init_state defaultDoc) [] (Json.num 3) =
      ({ init_state defaultDoc with
          pending_state := (init_state defaultDoc).state },
        some ("Schema validation failed - "
          ++ String.intercalate "/" ([] : List String)
          ++ ": " ++ "expected object")) :=
  ⟨rfl, rfl,
    claim_C2_failed_set_atomic objValidator (init_state defaultDoc) []
      (Json.num 3) (Json.num 3) ⟨[], "expected object"⟩ rfl rfl⟩

/-- C3: after any sequence of set/remove/removeAll/undo/redo operations,
the committed Document validates against the active schema: no execution
path installs a committed document that has not passed validation. -/
theorem claim_C3_committed_always_valid (v : Validator) (dflt : Json)
    (s : SrvState) (h : Reachable v dflt s) : v s.state = none :=
  (reachable_inv h).2.2.2.1

theorem claim_C3_witness :
    objValidator ((exec_op objValidator defaultDoc (init_state defaultDoc)
      (.set ["a"] (.num 1))).1.state) = none :=
  claim_C3_committed_always_valid objValidator defaultDoc _
    (Reachable.step _ _ (Reachable.init (by decide) rfl) (by decide))

/-- C4: a successful commit with a non-empty Diff pushes exactly that one
Diff onto the UndoStack and leaves the RedoStack empty; a commit whose
Diff is empty changes neither stack (it leaves the whole state
unchanged).  `validate_and_backup` is the commit protocol shared by
`set_path`, `remove_path` and `remove_all`. -/
theorem claim_C4_commit_stack_discipline (v : Validator) (s : SrvState)
    (hval : v s.pending_state = none) :
    (∀ d, diffJ s.pending_state s.state = some d →
      (validate_and_backup v s).1.undo_stack = d :: s.undo_stack ∧
      (validate_and_backup v s).1.redo_stack = []) ∧
    (diffJ s.pending_state s.state = none →
      (validate_and_backup v s).1 = s) := by
  constructor
  · intro d hd
    simp [validate_and_backup, hval, hd]
  · intro hd
    simp only [validate_and_backup, hval, hd]

theorem claim_C4_witness :
    (objValidator (SrvState.mk defaultDoc
        (.obj (.cons "a" (.num 1) (.cons "version" (.str "0.2.0") .nil)))
        [] []).pending_state = none) ∧
    ((∀ d, diffJ (SrvState.mk defaultDoc
        (.obj (.cons "a" (.num 1) (.cons "version" (.str "0.2.0") .nil)))
        [] []).pending_state defaultDoc = some d →
      (validate_and_backup objValidator (SrvState.mk defaultDoc
        (.obj (.cons "a" (.num 1) (.cons "version" (.str "0.2.0") .nil)))
        [] [])).1.undo_stack = [d] ∧
      (validate_and_backup objValidator (SrvState.mk defaultDoc
        (.obj (.cons "a" (.num 1) (.cons "version" (.str "0.2.0") .nil)))
        [] [])).1.redo_stack = []) ∧
     (diffJ (SrvState.mk defaultDoc
        (.obj (.cons "a" (.num 1) (.cons "version" (.str "0.2.0") .nil)))
        [] []).pending_state defaultDoc = none →
      (validate_and_backup objValidator (SrvState.mk defaultDoc
        (.obj (.cons "a" (.num 1) (.cons "version" (.str "0.2.0") .nil)))
        [] [])).1 = SrvState.mk defaultDoc
        (.obj (.cons "a" (.num 1) (.cons "version" (.str "0.2.0") .nil)))
        [] [])) :=
  ⟨rfl, claim_C4_commit_stack_discipline objValidator _ rfl⟩

/-! Occurrence predicates for the `remove_all` claim. -/

mutual
/-- The key occurs somewhere in the value, at any depth, through both
mappings and sequences. -/
def occursJ (key : String) : Json → Bool
  | .obj kvs => occursO key kvs
  | .arr xs => occursA key xs
  | _ => false
/-- Occurrence inside an array. -/
def occursA (key : String) : JArr → Bool
  | .nil => false
  | .cons x xs => occursJ key x || occursA key xs
/-- Occurrence inside an object: as a key, or inside a value. -/
def occursO (key : String) : JObj → Bool
  | .nil => false
  | .cons k v tl => k == key || occursJ key v || occursO key tl
end

mutual
/-- The key occurs in the mapping spine: reachable through nested
mappings only, never passing through a sequence. -/
def occursDS (key : String) : Json → Bool
  | .obj kvs => occursDSO key kvs
  | _ => false
/-- Mapping-spine occurrence inside an object. -/
def occursDSO (key : String) : JObj → Bool
  | .nil => false
  | .cons k v tl => k == key || occursDS key v || occursDSO key tl
end

/-- The accepting validator (a schema that accepts everything). -/
def acceptAll : Validator := fun _ => none

/-- A committed document holding the key `"k"` at the top level and also
inside an object nested in an array. -/
def docC6 : Json :=
  .obj (.cons "a" (.arr (.cons (.obj (.cons "k" (.num 1) .nil)) .nil))
    (.cons "k" (.num 2) .nil))

/-- C6 is refuted as stated: `remove_all` does not remove every
occurrence of the key at any nesting depth anywhere in the document.  Its
recursion descends only into dict values (`isinstance(..., dict)`), so an
occurrence inside an object nested in a list survives: after
`remove_all "k"` on a document holding `"k"` both at top level and inside
an array, the committed document still contains `"k"`. -/
theorem claim_C6_counterexample :
    occursJ "k" ((remove_all acceptAll
      (SrvState.mk docC6 docC6 [] []) "k").1.state) = true := by decide

theorem occursDSO_remove_all_obj (key : String) : ∀ (kvs : JObj),
    occursDSO key (remove_all_obj key kvs) = false
  | .nil => rfl
  | .cons k v tl => by
    by_cases hk : k = key
    · simp only [remove_all_obj, if_pos hk]
      exact occursDSO_remove_all_obj key tl
    · simp only [remove_all_obj, if_neg hk, occursDSO, Bool.or_eq_false_iff]
      refine ⟨⟨by simpa using hk, ?_⟩, occursDSO_remove_all_obj key tl⟩
      cases v with
      | obj kvs2 =>
        simp only [remove_all_val, occursDS]
        exact occursDSO_remove_all_obj key kvs2
      | null => rfl
      | bool b => rfl
      | num n => rfl
      | str st => rfl
      | arr xs => rfl

/-- C6 amended: for a mapping committed document, `remove_all` seeds a
working copy from the committed document, removes every occurrence of
the key reachable through nested mappings (occurrences inside sequences
are not visited), and runs the commit protocol exactly once, even when
the key occurs nowhere. -/
theorem claim_C6_amended (v : Validator) (s : SrvState) (key : String)
    (kvs : JObj) (hst : s.state = .obj kvs) :
    remove_all v s key =
      ((validate_and_backup v
        { s with pending_state := .obj (remove_all_obj key kvs) }).1,
        some "") ∧
    occursDS key (.obj (remove_all_obj key kvs)) = false := by
  constructor
  · simp only [remove_all, hst, remove_all_pending]
  · simp only [occursDS]
    exact occursDSO_remove_all_obj key kvs

theorem claim_C6_witness :
    (SrvState.mk docC6 docC6 [] []).state =
        .obj (.cons "a" (.arr (.cons (.obj (.cons "k" (.num 1) .nil)) .nil))
          (.cons "k" (.num 2) .nil)) ∧
    (remove_all acceptAll (SrvState.mk docC6 docC6 [] []) "k" =
      ((validate_and_backup acceptAll
        { SrvState.mk docC6 docC6 [] [] with
          pending_state := .obj (remove_all_obj "k"
            (.cons "a" (.arr (.cons (.obj (.cons "k" (.num 1) .nil)) .nil))
              (.cons "k" (.num 2) .nil))) }).1, some "") ∧
     occursDS "k" (.obj (remove_all_obj "k"
        (.cons "a" (.arr (.cons (.obj (.cons "k" (.num 1) .nil)) .nil))
          (.cons "k" (.num 2) .nil)))) = false) :=
  ⟨rfl, claim_C6_amended acceptAll (SrvState.mk docC6 docC6 [] []) "k" _ rfl⟩

/-- C9 is refuted as stated: `get_path` does not return the `None`
sentinel for every absent path.  Its `try` catches only `KeyError`, so a
path whose prefix resolves to a scalar (here `{"a": 5}` read at
`["a","b"]`) raises an uncaught `TypeError` (the outer `none` in the
model), instead of returning the sentinel. -/
theorem claim_C9_counterexample :
    get_path (SrvState.mk (.obj (.cons "a" (.num 5) .nil))
      (.obj (.cons "a" (.num 5) .nil)) [] []) ["a", "b"] = none := by decide

/-- The read path stays inside mappings: every node the traversal indexes
into is a mapping (a missing key is fine; only a non-mapping stops it). -/
def mapping_traversal : Json → List String → Bool
  | _, [] => true
  | cur, p :: rest =>
    match cur with
    | .obj kvs =>
      match lookupJ p kvs with
      | some v => mapping_traversal v rest
      | none => true
    | _ => false

theorem get_path_aux_of_mapping_traversal : ∀ (path : List String)
    {cur : Json}, mapping_traversal cur path = true →
    (∃ v, get_path_aux cur path = .ok v) ∨
      get_path_aux cur path = .error .keyError
  | [], cur, _ => Or.inl ⟨cur, rfl⟩
  | [p], cur, h => by
    cases cur with
    | obj kvs =>
      simp only [get_path_aux, indexJ]
      cases hl : lookupJ p kvs with
      | some v => exact Or.inl ⟨v, rfl⟩
      | none => exact Or.inr rfl
    | null => simp [mapping_traversal] at h
    | bool b => simp [mapping_traversal] at h
    | num n => simp [mapping_traversal] at h
    | str st => simp [mapping_traversal] at h
    | arr xs => simp [mapping_traversal] at h
  | p :: q :: rest, cur, h => by
    cases cur with
    | obj kvs =>
      simp only [mapping_traversal] at h
      simp only [get_path_aux, indexJ]
      cases hl : lookupJ p kvs with
      | some v =>
        rw [hl] at h
        exact get_path_aux_of_mapping_traversal (q :: rest) h
      | none => exact Or.inr rfl
    | null => simp [mapping_traversal] at h
    | bool b => simp [mapping_traversal] at h
    | num n => simp [mapping_traversal] at h
    | str st => simp [mapping_traversal] at h
    | arr xs => simp [mapping_traversal] at h

/-- C9 amended: `get_path` reads only the committed Document (its result
does not depend on the pending copy or the stacks), and for every path
whose traversal stays within mappings an absent path yields the `None`
sentinel rather than raising; a path whose prefix resolves to a scalar or
sequence raises an uncaught `TypeError` instead (see the
counterexample). -/
theorem claim_C9_amended (s : SrvState) (item_path : List String)
    (h : mapping_traversal s.state item_path = true) :
    (get_path s item_path).isSome = true ∧
    (∀ p2 u2 r2, get_path (SrvState.mk s.state p2 u2 r2) item_path
      = get_path s item_path) := by
  constructor
  · rcases get_path_aux_of_mapping_traversal item_path h with ⟨v, hv⟩ | hv <;>
      simp [get_path, hv]
  · intro p2 u2 r2
    rfl

theorem claim_C9_witness :
    mapping_traversal (SrvState.mk defaultDoc defaultDoc [] []).state
        ["widgets", "a"] = true ∧
    (get_path (SrvState.mk defaultDoc defaultDoc [] [])
        ["widgets", "a"]).isSome = true ∧
    get_path (SrvState.mk defaultDoc defaultDoc [] []) ["widgets", "a"]
      = some none :=
  ⟨by decide,
    (claim_C9_amended (SrvState.mk defaultDoc defaultDoc [] [])
      ["widgets", "a"] (by decide)).1,
    by decide⟩

/-! The undo/redo round trip (claim C1). -/

/-- The state after one `undo` request. -/
def undo1 (s : SrvState) : SrvState := (undo s).1

/-- The state after one `redo` request. -/
def redo1 (s : SrvState) : SrvState := (redo s).1

theorem undo1_empty {s : SrvState} (h : s.undo_stack = []) : undo1 s = s := by
  simp [undo1, undo, h]

theorem redo1_empty {s : SrvState} (h : s.redo_stack = []) : redo1 s = s := by
  simp [redo1, redo, h]

theorem undo1_cons {s : SrvState} {d : Diff} {rest : List Diff}
    (h : s.undo_stack = d :: rest) :
    undo1 s = { state := patch s.state d, pending_state := patch s.state d,
                undo_stack := rest, redo_stack := d :: s.redo_stack } := by
  simp [undo1, undo, h]

theorem redo1_cons {s : SrvState} {d : Diff} {rest : List Diff}
    (h : s.redo_stack = d :: rest) :
    redo1 s = { state := unpatch s.state d,
                pending_state := unpatch s.state d,
                undo_stack := d :: s.undo_stack, redo_stack := rest } := by
  simp [redo1, redo, h]

theorem inv_undo1 {v : Validator} {dflt : Json} {s : SrvState}
    (hInv : Inv v dflt s) : Inv v dflt (undo1 s) :=
  inv_exec_op Op.undoOp hInv rfl

theorem undo_redo_inverse {v : Validator} {dflt : Json} {s : SrvState}
    {d : Diff} {rest : List Diff} (hInv : Inv v dflt s)
    (hus : s.undo_stack = d :: rest) : redo1 (undo1 s) = s := by
  obtain ⟨hd, hwfs, hps, hvs, hu, hr⟩ := hInv
  rw [hus] at hu
  obtain ⟨dprev, hwp, hvp, hdp, hchain⟩ := hu
  have hpatch : patch s.state d = dprev := patch_diffJ hwfs hwp hdp
  have hunpatch : unpatch dprev d = s.state := unpatch_diffJ hwfs hwp hdp
  rw [undo1_cons hus, redo1_cons rfl]
  cases s with
  | mk st ps us rs =>
    simp only at hps hus hpatch ⊢
    rw [hpatch, hunpatch, hus, hps]

theorem undoN_empty : ∀ (m : Nat) {s : SrvState}, s.undo_stack = [] →
    undo1^[m] s = s
  | 0, _, _ => rfl
  | m + 1, s, h => by
    rw [Function.iterate_succ_apply, undo1_empty h, undoN_empty m h]

theorem redoN_empty : ∀ (m : Nat) {s : SrvState}, s.redo_stack = [] →
    redo1^[m] s = s
  | 0, _, _ => rfl
  | m + 1, s, h => by
    rw [Function.iterate_succ_apply, redo1_empty h, redoN_empty m h]

theorem undoN_lengths : ∀ (K : Nat) {s : SrvState},
    K ≤ s.undo_stack.length →
    (undo1^[K] s).undo_stack.length = s.undo_stack.length - K ∧
    (undo1^[K] s).redo_stack.length = K + s.redo_stack.length
  | 0, s, _ => ⟨by simp, by simp⟩
  | K + 1, s, hK => by
    cases hus : s.undo_stack with
    | nil => rw [hus] at hK; simp at hK
    | cons d rest =>
      rw [Function.iterate_succ_apply, undo1_cons hus]
      have hK2 : K ≤ rest.length := by
        rw [hus] at hK
        simpa using Nat.lt_succ_iff.mp hK
      obtain ⟨h1, h2⟩ := undoN_lengths K (s :=
        { state := patch s.state d, pending_state := patch s.state d,
          undo_stack := rest, redo_stack := d :: s.redo_stack }) hK2
      constructor
      · rw [h1]
        show rest.length - K = (d :: rest).length - (K + 1)
        simp only [List.length_cons]
        omega
      · rw [h2]
        show K + (d :: s.redo_stack).length = K + 1 + s.redo_stack.length
        simp only [List.length_cons]
        omega

theorem redoN_lengths : ∀ (K : Nat) {s : SrvState},
    K ≤ s.redo_stack.length →
    (redo1^[K] s).redo_stack.length = s.redo_stack.length - K
  | 0, s, _ => by simp
  | K + 1, s, hK => by
    cases hrs : s.redo_stack with
    | nil => rw [hrs] at hK; simp at hK
    | cons d rest =>
      rw [Function.iterate_succ_apply, redo1_cons hrs]
      have hK2 : K ≤ rest.length := by
        rw [hrs] at hK
        simpa using Nat.lt_succ_iff.mp hK
      have h1 := redoN_lengths K (s :=
        { state := unpatch s.state d, pending_state := unpatch s.state d,
          undo_stack := d :: s.undo_stack, redo_stack := rest }) hK2
      rw [h1]
      show rest.length - K = (d :: rest).length - (K + 1)
      simp only [List.length_cons]
      omega

theorem main_roundtrip : ∀ (K : Nat) {v : Validator} {dflt : Json}
    {s : SrvState}, Inv v dflt s → K ≤ s.undo_stack.length →
    redo1^[K] (undo1^[K] s) = s
  | 0, _, _, _, _, _ => rfl
  | K + 1, v, dflt, s, hInv, hK => by
    cases hus : s.undo_stack with
    | nil => rw [hus] at hK; simp at hK
    | cons d rest =>
      have hlen : K ≤ (undo1 s).undo_stack.length := by
        rw [undo1_cons hus]
        rw [hus] at hK
        simpa using Nat.lt_succ_iff.mp hK
      have e1 : undo1^[K + 1] s = undo1^[K] (undo1 s) :=
        Function.iterate_succ_apply undo1 K s
      have e2 : redo1^[K + 1] (undo1^[K] (undo1 s))
          = redo1 (redo1^[K] (undo1^[K] (undo1 s))) :=
        Function.iterate_succ_apply' redo1 K _
      rw [e1, e2, main_roundtrip K (inv_undo1 hInv) hlen]
      exact undo_redo_inverse hInv hus

theorem full_roundtrip {v : Validator} {dflt : Json} {s : SrvState}
    (hInv : Inv v dflt s) (N : Nat) (hN : s.undo_stack.length ≤ N)
    (hredo : s.redo_stack = []) : redo1^[N] (undo1^[N] s) = s := by
  have hsplit : N = (N - s.undo_stack.length) + s.undo_stack.length := by
    omega
  have hK : undo1^[N] s = undo1^[s.undo_stack.length] s := by
    conv_lhs => rw [hsplit]
    rw [Function.iterate_add_apply]
    apply undoN_empty
    have := (undoN_lengths s.undo_stack.length (le_refl _)).1
    rw [Nat.sub_self] at this
    exact List.length_eq_zero.mp this
  rw [hK]
  have hrl : (undo1^[s.undo_stack.length] s).redo_stack.length
      = s.undo_stack.length := by
    have := (undoN_lengths s.undo_stack.length (le_refl _)).2
    rw [hredo] at this
    simpa using this
  have hK2 : redo1^[N] (undo1^[s.undo_stack.length] s)
      = redo1^[s.undo_stack.length] (undo1^[s.undo_stack.length] s) := by
    conv_lhs => rw [hsplit]
    rw [Function.iterate_add_apply]
    apply redoN_empty
    have := redoN_lengths s.undo_stack.length (s :=
      undo1^[s.undo_stack.length] s) (by rw [hrl])
    rw [hrl, Nat.sub_self] at this
    exact List.length_eq_zero.mp this
  rw [hK2]
  exact main_roundtrip s.undo_stack.length hInv (le_refl _)

theorem vab_stack_facts (v : Validator) (s : SrvState) :
    ((validate_and_backup v s).1.redo_stack = [] ∨
      (validate_and_backup v s).1.redo_stack = s.redo_stack) ∧
    (validate_and_backup v s).1.undo_stack.length
      ≤ s.undo_stack.length + 1 := by
  simp only [validate_and_backup]
  cases v s.pending_state with
  | some e =>
    refine ⟨Or.inr rfl, ?_⟩
    show s.undo_stack.length ≤ s.undo_stack.length + 1
    omega
  | none =>
    cases diffJ s.pending_state s.state with
    | none =>
      refine ⟨Or.inr rfl, ?_⟩
      show s.undo_stack.length ≤ s.undo_stack.length + 1
      omega
    | some d =>
      refine ⟨Or.inl rfl, ?_⟩
      show (d :: s.undo_stack).length ≤ s.undo_stack.length + 1
      simp

theorem exec_set_remove_stacks {v : Validator} {dflt : Json} {s : SrvState}
    (op : Op) (hsr : set_remove_only op = true) (hredo : s.redo_stack = []) :
    (exec_op v dflt s op).1.redo_stack = [] ∧
    (exec_op v dflt s op).1.undo_stack.length ≤ s.undo_stack.length + 1 := by
  cases op with
  | set path value =>
    simp only [exec_op, set_path]
    cases hp : (if path.isEmpty then some value
                else set_path_aux s.pending_state path value) with
    | none =>
      refine ⟨hredo, ?_⟩
      show s.undo_stack.length ≤ s.undo_stack.length + 1
      omega
    | some p2 =>
      obtain ⟨hor, hlen2⟩ := vab_stack_facts v { s with pending_state := p2 }
      constructor
      · show (validate_and_backup v
            { s with pending_state := p2 }).1.redo_stack = []
        rcases hor with h | h
        · exact h
        · rw [h]
          exact hredo
      · show (validate_and_backup v
            { s with pending_state := p2 }).1.undo_stack.length
          ≤ s.undo_stack.length + 1
        exact hlen2
  | remove path =>
    simp only [exec_op, remove_path]
    cases hp : (if path.isEmpty then some dflt
                else remove_path_aux s.pending_state path) with
    | none =>
      refine ⟨hredo, ?_⟩
      show s.undo_stack.length ≤ s.undo_stack.length + 1
      omega
    | some p2 =>
      obtain ⟨hor, hlen2⟩ := vab_stack_facts v { s with pending_state := p2 }
      constructor
      · show (validate_and_backup v
            { s with pending_state := p2 }).1.redo_stack = []
        rcases hor with h | h
        · exact h
        · rw [h]
          exact hredo
      · show (validate_and_backup v
            { s with pending_state := p2 }).1.undo_stack.length
          ≤ s.undo_stack.length + 1
        exact hlen2
  | removeAll key => exact absurd hsr (by simp [set_remove_only])
  | undoOp => exact absurd hsr (by simp [set_remove_only])
  | redoOp => exact absurd hsr (by simp [set_remove_only])

theorem run_ops_props : ∀ (ops : List Op) {v : Validator} {dflt : Json}
    {s : SrvState}, Inv v dflt s → s.redo_stack = [] →
    (∀ op ∈ ops, set_remove_only op = true) →
    (∀ op ∈ ops, op_wf op = true) →
    Inv v dflt (run_ops v dflt s ops) ∧
    (run_ops v dflt s ops).redo_stack = [] ∧
    (run_ops v dflt s ops).undo_stack.length
      ≤ s.undo_stack.length + ops.length
  | [], v, dflt, s, hInv, hredo, _, _ => ⟨hInv, hredo, by simp [run_ops]⟩
  | op :: rest, v, dflt, s, hInv, hredo, hsr, hwf => by
    have hsr0 : set_remove_only op = true := hsr op (by simp)
    have hwf0 : op_wf op = true := hwf op (by simp)
    obtain ⟨hr1, hr2⟩ := @exec_set_remove_stacks v dflt s op hsr0 hredo
    have hInv1 : Inv v dflt (exec_op v dflt s op).1 := inv_exec_op op hInv hwf0
    have hrun : run_ops v dflt s (op :: rest)
        = run_ops v dflt (exec_op v dflt s op).1 rest := rfl
    rw [hrun]
    obtain ⟨p1, p2, p3⟩ := run_ops_props rest hInv1 hr1
      (fun o ho => hsr o (by simp [ho]))
      (fun o ho => hwf o (by simp [ho]))
    refine ⟨p1, p2, ?_⟩
    simp only [List.length_cons]
    omega

/-- C1: for every sequence of N successful `set`/`remove` operations
starting from the initial Document, `undo()` N times followed by
`redo()` N times reproduces the committed Document present after the Nth
operation (applying each stored Diff in reverse and then forward is the
identity on the committed state). -/
theorem claim_C1_undo_redo_roundtrip (v : Validator) (dflt : Json)
    (ops : List Op) (hwfd : wfJ dflt = true) (hvd : v dflt = none)
    (hsr : ∀ op ∈ ops, set_remove_only op = true)
    (hwf : ∀ op ∈ ops, op_wf op = true)
    (hsucc : ops_succeed v dflt (init_state dflt) ops = true) :
    (redo1^[ops.length] (undo1^[ops.length]
        (run_ops v dflt (init_state dflt) ops))).state =
      (run_ops v dflt (init_state dflt) ops).state := by
  obtain ⟨hInv, hredo, hlen⟩ :=
    run_ops_props ops (inv_init hwfd hvd) rfl hsr hwf
  have hlen2 : (run_ops v dflt (init_state dflt) ops).undo_stack.length
      ≤ ops.length := by
    have h0 : (init_state dflt).undo_stack.length = 0 := rfl
    omega
  rw [full_roundtrip hInv ops.length hlen2 hredo]

theorem claim_C1_witness :
    (∀ op ∈ [Op.set ["a"] (.num 1), Op.remove ["a"]],
        set_remove_only op = true) ∧
    (∀ op ∈ [Op.set ["a"] (.num 1), Op.remove ["a"]], op_wf op = true) ∧
    ops_succeed objValidator defaultDoc (init_state defaultDoc)
      [Op.set ["a"] (.num 1), Op.remove ["a"]] = true ∧
    (redo1^[2] (undo1^[2] (run_ops objValidator defaultDoc
        (init_state defaultDoc)
        [Op.set ["a"] (.num 1), Op.remove ["a"]]))).state =
      (run_ops objValidator defaultDoc (init_state defaultDoc)
        [Op.set ["a"] (.num 1), Op.remove ["a"]]).state :=
  ⟨by decide, by decide, by decide,
    claim_C1_undo_redo_roundtrip objValidator defaultDoc
      [Op.set ["a"] (.num 1), Op.remove ["a"]]
      (by decide) rfl (by decide) (by decide) (by decide)⟩

/-! ## The notifier: `abr_server/notifier.py`, class `StateNotifier`

`StateNotifier.notify` (lines 70-75) iterates the WebSocket registry in
order and calls `ws.send_json(...)` on each connection.  The loop body
has no exception handling, so a raising send aborts the loop and the
exception propagates to the caller.  A connected subscriber is modelled
by its registry id together with whether its `send_json` call succeeds
(`send_ok = false`: the call raises).
-/

/-- A connected WebSocket subscriber, abstracted to its registry id and
the outcome of delivering the current message to it. -/
structure Subscriber where
  id : String
  send_ok : Bool

/-- `StateNotifier.notify`: send the message to each registered WebSocket
in registry order, with no per-subscriber exception handling.  The result
is the list of subscriber ids the message was delivered to, and whether
an exception escaped the broadcast. -/
def notify : List Subscriber → List String × Bool
  | [] => ([], false)
  | ws :: rest =>
    if ws.send_ok then
      (ws.id :: (notify rest).1, (notify rest).2)
    else
      ([], true)

/-- Three connected subscribers; delivery to the second one raises. -/
def subsC5 : List Subscriber :=
  [{ id := "s1", send_ok := true },
    { id := "s2", send_ok := false },
    { id := "s3", send_ok := true }]

/-- C5 is refuted as stated: broadcasting to three subscribers where the
delivery to the second raises does not deliver to the third subscriber,
whose own delivery would have succeeded.  Only the first subscriber
receives the message and the exception escapes `notify`: per-subscriber
delivery failures are not isolated. -/
theorem claim_C5_counterexample :
    (notify subsC5).1 = ["s1"] ∧
    "s3" ∉ (notify subsC5).1 ∧
    (notify subsC5).2 = true := by decide

/-- C5 amended: a broadcast delivers the notification to exactly the
longest prefix of subscribers, in registry order, whose sends succeed; as
soon as one delivery raises, every later subscriber is skipped and the
exception escapes `notify`.  In particular an exception escapes the
broadcast iff the delivery to some connected subscriber fails. -/
theorem claim_C5_amended (subs : List Subscriber) :
    (notify subs).1
        = (subs.takeWhile (fun ws => ws.send_ok)).map (fun ws => ws.id) ∧
    ((notify subs).2 = true ↔ ∃ ws ∈ subs, ws.send_ok = false) := by
  induction subs with
  | nil => simp [notify]
  | cons ws rest ih =>
    cases h : ws.send_ok with
    | true =>
      refine ⟨?_, ?_⟩
      · simp [notify, h, List.takeWhile_cons, ih.1]
      · simp [notify, h, ih.2]
    | false =>
      refine ⟨?_, ?_⟩
      · simp [notify, h, List.takeWhile_cons]
      · simp [notify, h]

/-! ## The VisAsset manager: `abr_server/visasset_manager.py`

The module keeps a process-wide mutable set `LIBRARIES_TO_SEARCH` of
library locations, seeded with `settings.VISASSET_LIBRARY` (lines
31-32).  `settings.py` is not among the sources, so the three constants
below are modelled; the manifest file name `artifact.json` is
corroborated by `api/views.py`, which reads `artifact.json` from each
visasset directory.

The filesystem and the network are modelled as association lists from
paths/URLs to file contents (a JSON value standing in for the bytes);
a URL absent from the network map is one that does not answer 200.
Python iterates the host set in unspecified order and runs the per-file
downloads on a thread pool of 8 workers; the model fixes insertion order
for the set and runs the downloads sequentially.  This is sound for the
properties proved here: each download targets its own output path, the
recorded failures are order-insensitive, and the library set itself is
only ever added to.
-/

/-- Modelled `settings.VISASSET_PATH` (the on-disk visasset root). -/
def VISASSET_PATH : String := "media/visassets"

/-- Modelled `settings.VISASSET_JSON` (the manifest file name; the name
`artifact.json` also appears in `api/views.py`). -/
def VISASSET_JSON : String := "artifact.json"

/-- Modelled `settings.VISASSET_LIBRARY` (the default library). -/
def VISASSET_LIBRARY : String :=
  "https://sculptingvis.tacc.utexas.edu/library/"

/-- `Path.joinpath` on the modelled flat path strings. -/
def joinPath (a b : String) : String := a ++ "/" ++ b

/-- Lookup in an association list keyed by strings (used for both the
filesystem and the network). -/
def lookupW (key : String) : List (String × Json) → Option Json
  | [] => none
  | (k, v) :: tl => if key = k then some v else lookupW key tl

/-- The world outside the process: the files on disk and the bodies of
the URLs that answer 200. -/
structure World where
  fs : List (String × Json)
  net : List (String × Json)

/-- `download_file` (lines 116-125): GET the URL; on a 200 response write
the body to `output_path` and return True, otherwise return False and
write nothing. -/
def download_file (url output_path : String) (w : World) : Bool × World :=
  match lookupW url w.net with
  | some content => (true, { w with fs := (output_path, content) :: w.fs })
  | none => (false, w)

/-- `check_exists_and_download` (lines 109-114): a file already on disk
is treated as satisfied without re-fetching; otherwise download it. -/
def check_exists_and_download (url output_path : String) (w : World) :
    Bool × World :=
  if (lookupW output_path w.fs).isSome then (true, w)
  else download_file url output_path w

mutual
/-- `get_all_strings_from_json` (lines 129-137): collect every string
value in a JSON tree, depth first. -/
def get_all_strings_from_json : Json → List String
  | .str s => [s]
  | .arr xs => get_all_strings_arr xs
  | .obj kvs => get_all_strings_obj kvs
  | _ => []
/-- `get_all_strings_from_json` over the elements of an array. -/
def get_all_strings_arr : JArr → List String
  | .nil => []
  | .cons x xs => get_all_strings_from_json x ++ get_all_strings_arr xs
/-- `get_all_strings_from_json` over the values of an object. -/
def get_all_strings_obj : JObj → List String
  | .nil => []
  | .cons _ v tl => get_all_strings_from_json v ++ get_all_strings_obj tl
end

/-- Line 105 of `visasset_manager.py` tests `if not future:` — the
truthiness of the `concurrent.futures.Future` object itself, not of the
boolean `future.result()` it carries.  A `Future` instance is always
truthy in Python, so the branch never runs and failed data-file
downloads are never appended to `failed`. -/
def future_is_falsy : Bool := false

/-- The data-file downloads of lines 100-106, one
`check_exists_and_download` per file name listed in the manifest's
`artifactData` subtree (run sequentially; see the section comment). -/
def download_all (uuid host : String) : List String → World → World
  | [], w => w
  | f :: rest, w =>
    download_all uuid host rest
      (check_exists_and_download (host ++ uuid ++ "/" ++ f)
        (joinPath (joinPath VISASSET_PATH uuid) f) w).2

/-- One iteration of the host loop of `download_visasset` (lines
74-106).  The first component is `none` when the iteration raises — the
manifest lacks a `preview` string or an `artifactData` member — paired
with the world as mutated so far; otherwise the failure list recorded
for this host.  Data-file failures are filtered by `future_is_falsy`
(always false), mirroring line 105. -/
def download_from_host (uuid host : String) (w : World) :
    Option (List String) × World :=
  let va_path := joinPath VISASSET_PATH uuid
  let artifact_json_path := joinPath va_path VISASSET_JSON
  let va_url := host ++ uuid ++ "/"
  let artifact_json_url := va_url ++ VISASSET_JSON
  let r1 := check_exists_and_download artifact_json_url artifact_json_path w
  if r1.1 then
    match lookupW artifact_json_path r1.2.fs with
    | none => (none, r1.2)
    | some artifact_json =>
      match artifact_json with
      | .obj kvs =>
        match lookupJ "preview" kvs with
        | some (.str preview_img) =>
          let preview_path := joinPath va_path preview_img
          let r2 := check_exists_and_download (va_url ++ preview_img)
            preview_path r1.2
          let failed1 : List String := if r2.1 then [] else [preview_path]
          match lookupJ "artifactData" kvs with
          | some artifact_data =>
            let all_files := get_all_strings_from_json artifact_data
            let w3 := download_all uuid host all_files r2.2
            (some (failed1 ++ all_files.filter (fun _ => future_is_falsy)),
              w3)
          | none => (none, r2.2)
        | _ => (none, r1.2)
      | _ => (none, r1.2)
  else
    (some [artifact_json_path], r1.2)

/-- The module-level state of `visasset_manager.py` together with the
world: the `LIBRARIES_TO_SEARCH` set (as a duplicate-free list in
insertion order) and the filesystem/network. -/
structure VAState where
  libraries_to_search : List String
  world : World

/-- The host loop of `download_visasset` (lines 72-106): accumulate the
per-host failure lists over every known library location; a raising
iteration aborts the loop and the exception propagates (first component
`none`), keeping the files written so far. -/
def download_loop (uuid : String) :
    List String → List String → World → Option (List String) × World
  | [], failed, w => (some failed, w)
  | host :: hosts, failed, w =>
    match download_from_host uuid host w with
    | (some f, w2) => download_loop uuid hosts (failed ++ f) w2
    | (none, w2) => (none, w2)

/-- `download_visasset` (lines 68-107): a non-null `library_host` is
first added to the module-level `LIBRARIES_TO_SEARCH` set — a mutation
performed before anything can raise, persisting for the rest of the
process whatever happens afterwards — then every known library location
is attempted in turn.  A `none` first component means an iteration
raised. -/
def download_visasset (uuid : String) (library_host : Option String)
    (st : VAState) : Option (List String) × VAState :=
  let libs2 :=
    match library_host with
    | some h =>
      if h ∈ st.libraries_to_search then st.libraries_to_search
      else st.libraries_to_search ++ [h]
    | none => st.libraries_to_search
  let r := download_loop uuid libs2 [] st.world
  (r.1, { libraries_to_search := libs2, world := r.2 })

/-- The single library location of the C7 scenario. -/
def hostC7 : String := "http://lib/"

/-- A manifest referencing one data file `data.bin` in its
`artifactData` subtree and a preview `thumbnail.png` (member names in
canonical sorted order). -/
def manifestC7 : Json :=
  .obj (.cons "artifactData" (.obj (.cons "file" (.str "data.bin") .nil))
    (.cons "preview" (.str "thumbnail.png") .nil))

/-- The C7 scenario: one library location; the manifest and the preview
URLs answer 200, the data file URL does not; the disk starts empty. -/
def stC7 : VAState :=
  { libraries_to_search := [hostC7]
    world :=
      { fs := []
        net :=
          [(hostC7 ++ "abc/" ++ VISASSET_JSON, manifestC7),
            (hostC7 ++ "abc/thumbnail.png", .str "png-bytes")] } }

/-- C7 fails on the code.  With a manifest whose `artifactData` subtree
references `data.bin` and a network on which that file's URL does not
answer 200, `download_visasset` returns an empty failure list even
though `data.bin` was fetched unsuccessfully and is not on disk, while
the manifest itself was downloaded fine: the returned list is not the
union of the per-file fetch failures, and emptiness does not imply full
resolution.  Cause: line 105 tests `if not future:`, the truthiness of
the always-truthy `Future` object, so per-file failures are never
recorded (see `future_is_falsy`). -/
theorem claim_C7_failure_list_wrong :
    (download_visasset "abc" none stC7).1 = some [] ∧
    lookupW (joinPath (joinPath VISASSET_PATH "abc") "data.bin")
        (download_visasset "abc" none stC7).2.world.fs = none ∧
    lookupW (joinPath (joinPath VISASSET_PATH "abc") VISASSET_JSON)
        (download_visasset "abc" none stC7).2.world.fs ≠ none := by decide

/-- A trace of calls to `download_visasset`: each element is an
identifier together with the optional extra library host. -/
def run_downloads (calls : List (String × Option String)) (st : VAState) :
    VAState :=
  match calls with
  | [] => st
  | c :: rest => run_downloads rest (download_visasset c.1 c.2 st).2

/-- The library set after a call: the input set, extended with the
supplied host if it is new. -/
theorem download_visasset_libs (uuid : String)
    (library_host : Option String) (st : VAState) :
    (download_visasset uuid library_host st).2.libraries_to_search =
      match library_host with
      | some h =>
        if h ∈ st.libraries_to_search then st.libraries_to_search
        else st.libraries_to_search ++ [h]
      | none => st.libraries_to_search := rfl

/-- No call ever removes a library location. -/
theorem mem_libs_download (uuid x : String) (library_host : Option String)
    (st : VAState) (hx : x ∈ st.libraries_to_search) :
    x ∈ (download_visasset uuid library_host st).2.libraries_to_search := by
  simp only [download_visasset_libs]
  cases library_host with
  | none => exact hx
  | some h =>
    show x ∈ if h ∈ st.libraries_to_search then st.libraries_to_search
      else st.libraries_to_search ++ [h]
    by_cases hmem : h ∈ st.libraries_to_search
    · rw [if_pos hmem]; exact hx
    · rw [if_neg hmem]; exact List.mem_append_left _ hx

/-- Library locations survive any trace of further calls. -/
theorem mem_libs_run (calls : List (String × Option String)) :
    ∀ (st : VAState) (x : String), x ∈ st.libraries_to_search →
      x ∈ (run_downloads calls st).libraries_to_search := by
  induction calls with
  | nil => intro st x hx; exact hx
  | cons c rest ih =>
    intro st x hx
    exact ih _ x (mem_libs_download c.1 x c.2 st hx)

/-- A host supplied to a call is in the library set afterwards. -/
theorem added_host_mem (uuid h : String) (st : VAState) :
    h ∈ (download_visasset uuid (some h) st).2.libraries_to_search := by
  simp only [download_visasset_libs]
  show h ∈ if h ∈ st.libraries_to_search then st.libraries_to_search
    else st.libraries_to_search ++ [h]
  by_cases hmem : h ∈ st.libraries_to_search
  · rw [if_pos hmem]; exact hmem
  · rw [if_neg hmem]
    exact List.mem_append_right _ (List.mem_singleton_self h)

/-- C10: supplying an extra library host permanently mutates the
module-level `LIBRARIES_TO_SEARCH` set.  (i) No call ever removes a
location: the set grows monotonically across any sequence of calls.
(ii) After `download_visasset id (some h)` the host `h` is in the set.
(iii) After that call and any interleaving of further calls with any
identifiers and optional hosts, `h` is still in the set of the next
call's result.  (iv) Every call attempts exactly the locations of its
resulting set: its failure list is computed by looping over that set, so
by (iii) every subsequent call also attempts `h`. -/
theorem claim_C10_library_set_monotone :
    (∀ (st : VAState) (uuid x : String) (library_host : Option String),
        x ∈ st.libraries_to_search →
        x ∈ (download_visasset uuid library_host st).2.libraries_to_search)
      ∧
    (∀ (st : VAState) (uuid h : String),
        h ∈ (download_visasset uuid (some h) st).2.libraries_to_search) ∧
    (∀ (st : VAState) (uuid h : String)
        (mid : List (String × Option String)) (uuid2 : String)
        (library_host2 : Option String),
        h ∈ (download_visasset uuid2 library_host2
            (run_downloads mid
              (download_visasset uuid (some h) st).2)).2.libraries_to_search)
      ∧
    (∀ (st : VAState) (uuid : String) (library_host : Option String),
        (download_visasset uuid library_host st).1 =
          (download_loop uuid
            (download_visasset uuid library_host st).2.libraries_to_search
            [] st.world).1) :=
  ⟨fun st uuid x lh hx => mem_libs_download uuid x lh st hx,
   fun st uuid h => added_host_mem uuid h st,
   fun st uuid h mid uuid2 lh2 =>
     mem_libs_download uuid2 h lh2 _
       (mem_libs_run mid _ h (added_host_mem uuid h st)),
   fun _ _ _ => rfl⟩

/-- The module-init state: `LIBRARIES_TO_SEARCH` holds exactly the
default library, nothing on disk, nothing on the network. -/
def vaInitC10 : VAState :=
  { libraries_to_search := [VISASSET_LIBRARY]
    world := { fs := [], net := [] } }

theorem claim_C10_witness :
    VISASSET_LIBRARY ∈ vaInitC10.libraries_to_search ∧
    VISASSET_LIBRARY ∈
      (download_visasset "abc" (some "http://lib/")
        vaInitC10).2.libraries_to_search :=
  ⟨by decide,
    claim_C10_library_set_monotone.1 vaInitC10 "abc" VISASSET_LIBRARY
      (some "http://lib/") (by decide)⟩

/-! ## The path parser: `api/views.py`, `clean_state_path` (lines 194-213)

Strings are modelled as `List Char`.  `clean_state_path` splits the
request path on the double-quote character (Python `str.split` keeps
empty fields), then walks the fields by index: an empty field is skipped
(the index, and hence the quoting parity, still advances), every other
field first has every occurrence of the method path deleted from it
(Python `str.replace(method_path, '')` — applied to all fields, quoted
spans included, and to all occurrences, not just a leading one), and then
an even-indexed (unquoted) field contributes its nonempty
slash-separated components while an odd-indexed (quoted) field
contributes itself if nonempty.

The spec describes the parser differently: strip the method path once at
the front of the request path, then split on unquoted separators only,
treating each quoted span as one segment.  `specCleanPath` below is the
definition written from the spec words, to be compared with
`clean_state_path` written from the source.
-/

/-- The quote character the parser splits on. -/
def quoteC : Char := '\"'

/-- The path separator. -/
def slashC : Char := '/'

/-- Does the pattern occur at the head of the string? -/
def patHere : List Char → List Char → Bool
  | [], _ => true
  | _ :: _, [] => false
  | p :: ps, c :: cs => (p == c) && patHere ps cs

/-- Does the pattern occur anywhere in the string? -/
def occursIn (pat : List Char) : List Char → Bool
  | [] => patHere pat []
  | c :: rest => patHere pat (c :: rest) || occursIn pat rest

/-- Does the character occur in the string? -/
def hasChar (ch : Char) : List Char → Bool
  | [] => false
  | c :: rest => (c == ch) || hasChar ch rest

/-- Python `str.split(ch)` as head field plus remaining fields (split on
every occurrence, keeping empty fields). -/
def pySplitP (ch : Char) : List Char → List Char × List (List Char)
  | [] => ([], [])
  | c :: rest =>
    let r := pySplitP ch rest
    if c = ch then ([], r.1 :: r.2) else (c :: r.1, r.2)

/-- Python `str.split(ch)`: the (always nonempty) list of fields. -/
def pySplit (ch : Char) (s : List Char) : List (List Char) :=
  (pySplitP ch s).1 :: (pySplitP ch s).2

/-- The scan of Python `str.replace(pat, '')` for a nonempty pattern:
delete the leftmost occurrence, continue scanning after it.  The fuel
bounds the recursion; it never runs out when it starts at the string
length (each step consumes at least one character), and exhausted fuel
returns the remaining string unchanged. -/
def pyReplaceGo (pat : List Char) : Nat → List Char → List Char
  | _, [] => []
  | 0, s => s
  | fuel + 1, c :: rest =>
    if patHere pat (c :: rest) then
      pyReplaceGo pat fuel (List.drop (pat.length - 1) rest)
    else
      c :: pyReplaceGo pat fuel rest

/-- Python `s.replace(pat, '')`: with an empty pattern and an empty
replacement Python returns the string unchanged. -/
def pyReplace (pat s : List Char) : List Char :=
  match pat with
  | [] => s
  | _ :: _ => pyReplaceGo pat s.length s

/-- The field loop of `clean_state_path` (lines 201-212): `ev` is the
quoting parity (`i % 2 == 0`); an empty field is skipped but still flips
the parity; every kept field goes through
`q = part.replace(method_path, '')` first. -/
def cleanGo (method_path : List Char) : Bool → List (List Char) → List (List Char)
  | _, [] => []
  | ev, part :: rest =>
    if part.length = 0 then cleanGo method_path (!ev) rest
    else
      (if ev then
        (pySplit slashC (pyReplace method_path part)).filter
          (fun x => x.length != 0)
      else if (pyReplace method_path part).length = 0 then []
      else [pyReplace method_path part]) ++ cleanGo method_path (!ev) rest

/-- `clean_state_path(method_path, request_path)` (lines 194-213). -/
def clean_state_path (method_path request_path : List Char) :
    List (List Char) :=
  cleanGo method_path true (pySplit quoteC request_path)

/-- Strip one occurrence of the pattern from the head of the string, if
present there. -/
def stripHead (pat s : List Char) : List Char :=
  if patHere pat s then s.drop pat.length else s

/-- The parser the spec words describe (refinement reference, written
from the spec, not from the source): remove the method path once at the
beginning of the request path, split the rest on the quote character,
and let even (unquoted) spans contribute their nonempty slash-separated
components and odd (quoted) spans contribute themselves as single
nonempty segments. -/
def specGo : Bool → List (List Char) → List (List Char)
  | _, [] => []
  | ev, part :: rest =>
    (if ev then (pySplit slashC part).filter (fun x => x.length != 0)
     else if part.length = 0 then [] else [part]) ++ specGo (!ev) rest

/-- The spec-side parser (see `specGo`). -/
def specCleanPath (method_path request_path : List Char) :
    List (List Char) :=
  specGo true (pySplit quoteC (stripHead method_path request_path))

/-- A head match survives appending to the string. -/
theorem patHere_append : ∀ (pat s t : List Char),
    patHere pat s = true → patHere pat (s ++ t) = true
  | [], _, _, _ => rfl
  | p :: ps, [], _, h => by simp [patHere] at h
  | p :: ps, c :: cs, t, h => by
    simp only [patHere, Bool.and_eq_true, beq_iff_eq] at h
    simp only [List.cons_append, patHere, Bool.and_eq_true, beq_iff_eq]
    exact ⟨h.1, patHere_append ps cs t h.2⟩

/-- A pattern matches at the head of itself plus anything. -/
theorem patHere_self_append : ∀ (pat t : List Char),
    patHere pat (pat ++ t) = true
  | [], _ => rfl
  | p :: ps, t => by
    simp only [List.cons_append, patHere, Bool.and_eq_true, beq_iff_eq]
    exact ⟨trivial, patHere_self_append ps t⟩

/-- A head match decomposes the string. -/
theorem patHere_drop : ∀ (pat s : List Char),
    patHere pat s = true → s = pat ++ s.drop pat.length
  | [], s, _ => by simp
  | p :: ps, [], h => by simp [patHere] at h
  | p :: ps, c :: cs, h => by
    simp only [patHere, Bool.and_eq_true, beq_iff_eq] at h
    simp only [List.cons_append, List.length_cons, List.drop_succ_cons,
      List.cons.injEq]
    exact ⟨h.1.symm, patHere_drop ps cs h.2⟩

/-- No occurrence in a string gives no occurrence in the empty string
(the empty-pattern case). -/
theorem occursIn_nil_of : ∀ (pat s : List Char),
    occursIn pat s = false → occursIn pat [] = false
  | _, [], h => h
  | pat, c :: rest, h => by
    simp only [occursIn, Bool.or_eq_false_iff] at h
    exact occursIn_nil_of pat rest h.2

/-- No occurrence in a concatenation gives no occurrence in either
half. -/
theorem occursIn_append : ∀ (pat a b : List Char),
    occursIn pat (a ++ b) = false →
    occursIn pat a = false ∧ occursIn pat b = false
  | pat, [], b, h => ⟨occursIn_nil_of pat b h, h⟩
  | pat, c :: a2, b, h => by
    have h0 : patHere pat (c :: (a2 ++ b)) = false ∧
        occursIn pat (a2 ++ b) = false := by
      have h1 : occursIn pat (c :: (a2 ++ b)) = false := h
      simpa only [occursIn, Bool.or_eq_false_iff] using h1
    have ih := occursIn_append pat a2 b h0.2
    refine ⟨?_, ih.2⟩
    simp only [occursIn, Bool.or_eq_false_iff]
    refine ⟨?_, ih.1⟩
    cases hp : patHere pat (c :: a2) with
    | false => rfl
    | true =>
      have h3 := patHere_append pat (c :: a2) b hp
      have h4 : patHere pat (c :: (a2 ++ b)) = true := by
        rw [← List.cons_append]; exact h3
      rw [h4] at h0
      exact Bool.noConfusion h0.1

/-- The replace scan is the identity when the pattern never occurs. -/
theorem pyReplaceGo_no_occur : ∀ (pat : List Char) (s : List Char)
    (fuel : Nat), occursIn pat s = false → pyReplaceGo pat fuel s = s
  | _, [], fuel, _ => by cases fuel <;> rfl
  | _, _ :: _, 0, _ => rfl
  | pat, c :: rest, fuel + 1, h => by
    simp only [occursIn, Bool.or_eq_false_iff] at h
    simp only [pyReplaceGo, h.1, Bool.false_eq_true, if_false]
    rw [pyReplaceGo_no_occur pat rest fuel h.2]

/-- `s.replace(pat, '')` is the identity when the pattern never
occurs in `s`. -/
theorem pyReplace_no_occur (pat s : List Char)
    (h : occursIn pat s = false) : pyReplace pat s = s := by
  cases pat with
  | nil => rfl
  | cons p ps => exact pyReplaceGo_no_occur (p :: ps) s s.length h

/-- `(pat ++ t).replace(pat, '') = t` for a nonempty pattern that does
not occur in `t`. -/
theorem pyReplace_strip (p : Char) (ps t : List Char)
    (h : occursIn (p :: ps) t = false) :
    pyReplace (p :: ps) ((p :: ps) ++ t) = t := by
  have h1 : patHere (p :: ps) (p :: (ps ++ t)) = true := by
    have := patHere_self_append (p :: ps) t
    rwa [List.cons_append] at this
  show pyReplaceGo (p :: ps) ((p :: ps) ++ t).length ((p :: ps) ++ t) = t
  rw [List.cons_append, List.length_cons]
  simp only [pyReplaceGo, h1, if_true, List.length_cons,
    Nat.add_sub_cancel]
  rw [List.drop_left]
  exact pyReplaceGo_no_occur (p :: ps) t (ps ++ t).length h

/-- The head field of a split is an initial segment of the string. -/
theorem pySplitP_head_decomp (ch : Char) : ∀ s : List Char,
    ∃ r2, s = (pySplitP ch s).1 ++ r2
  | [] => ⟨[], rfl⟩
  | c :: rest => by
    by_cases h : c = ch
    · exact ⟨c :: rest, by simp [pySplitP, h]⟩
    · obtain ⟨r2, hr⟩ := pySplitP_head_decomp ch rest
      refine ⟨r2, ?_⟩
      simp only [pySplitP, h, if_false]
      rw [List.cons_append]
      exact congrArg (c :: ·) hr

/-- Splitting a concatenation whose first half is free of the split
character extends the head field. -/
theorem pySplitP_append (ch : Char) : ∀ (a b : List Char),
    hasChar ch a = false →
    pySplitP ch (a ++ b) = (a ++ (pySplitP ch b).1, (pySplitP ch b).2)
  | [], b, _ => by simp
  | c :: a2, b, h => by
    simp only [hasChar, Bool.or_eq_false_iff, beq_eq_false_iff_ne,
      ne_eq] at h
    have hstep : pySplitP ch ((c :: a2) ++ b)
        = (c :: (pySplitP ch (a2 ++ b)).1, (pySplitP ch (a2 ++ b)).2) := by
      show (if c = ch then
          (([] : List Char),
            (pySplitP ch (a2 ++ b)).1 :: (pySplitP ch (a2 ++ b)).2)
        else (c :: (pySplitP ch (a2 ++ b)).1, (pySplitP ch (a2 ++ b)).2))
          = _
      rw [if_neg h.1]
    rw [hstep, pySplitP_append ch a2 b h.2]
    simp [List.cons_append]

/-- If the pattern occurs nowhere in the string, it occurs in none of
the split fields. -/
theorem occursIn_splitP (pat : List Char) (ch : Char) :
    ∀ s : List Char, pat ≠ [] → occursIn pat s = false →
    occursIn pat (pySplitP ch s).1 = false ∧
      ∀ p ∈ (pySplitP ch s).2, occursIn pat p = false := by
  intro s
  induction s with
  | nil =>
    intro hne h
    exact ⟨h, by intro p hp; simp [pySplitP] at hp⟩
  | cons c rest ih =>
    intro hne h
    simp only [occursIn, Bool.or_eq_false_iff] at h
    obtain ⟨ih1, ih2⟩ := ih hne h.2
    by_cases hc : c = ch
    · have hstep : pySplitP ch (c :: rest)
          = ([], (pySplitP ch rest).1 :: (pySplitP ch rest).2) := by
        show (if c = ch then
            (([] : List Char), (pySplitP ch rest).1 :: (pySplitP ch rest).2)
          else (c :: (pySplitP ch rest).1, (pySplitP ch rest).2)) = _
        rw [if_pos hc]
      rw [hstep]
      refine ⟨occursIn_nil_of pat rest h.2, ?_⟩
      intro p hp
      rcases List.mem_cons.mp hp with hp | hp
      · exact hp ▸ ih1
      · exact ih2 p hp
    · have hstep : pySplitP ch (c :: rest)
          = (c :: (pySplitP ch rest).1, (pySplitP ch rest).2) := by
        show (if c = ch then
            (([] : List Char), (pySplitP ch rest).1 :: (pySplitP ch rest).2)
          else (c :: (pySplitP ch rest).1, (pySplitP ch rest).2)) = _
        rw [if_neg hc]
      rw [hstep]
      refine ⟨?_, fun p hp => ih2 p hp⟩
      simp only [occursIn, Bool.or_eq_false_iff]
      refine ⟨?_, ih1⟩
      cases hph : patHere pat (c :: (pySplitP ch rest).1) with
      | false => rfl
      | true =>
        obtain ⟨r2, hr⟩ := pySplitP_head_decomp ch rest
        have h2 := patHere_append pat (c :: (pySplitP ch rest).1) r2 hph
        have h3 : patHere pat (c :: rest) = true := by
          rw [hr, ← List.cons_append]
          exact h2
        rw [h3] at h
        exact Bool.noConfusion h.1

/-- When the replace step is the identity on every field, the code loop
and the spec loop agree at every parity. -/
theorem cleanGo_eq_specGo (mp : List Char) :
    ∀ (parts : List (List Char)) (ev : Bool),
    (∀ p ∈ parts, pyReplace mp p = p) →
    cleanGo mp ev parts = specGo ev parts := by
  intro parts
  induction parts with
  | nil => intro ev _; rfl
  | cons part rest ih =>
    intro ev h
    have hpart := h part (List.mem_cons_self part rest)
    have hrest : ∀ p ∈ rest, pyReplace mp p = p :=
      fun p hp => h p (List.mem_cons_of_mem part hp)
    by_cases hz : part.length = 0
    · have hpe : part = [] := List.length_eq_zero.mp hz
      subst hpe
      simp only [cleanGo, specGo, List.length_nil, if_true, ih (!ev) hrest]
      cases ev with
      | true => simp [pySplit, pySplitP]
      | false => simp
    · simp only [cleanGo, specGo, hz, if_false, hpart, ih (!ev) hrest]

/-- C8 is refuted as stated: `clean_state_path` does not treat every
quoted span as a single untouched segment, nor does it strip the method
path only at the beginning — it deletes every occurrence of the method
path from every span, quoted or not.  With method path `/api/state`, the
request path `/api/state/x/api/state/y` parses to `["x", "y"]`, not to
the spec parser's `["x", "api", "state", "y"]`. -/
theorem claim_C8_counterexample :
    clean_state_path "/api/state".toList "/api/state/x/api/state/y".toList
        = ["x".toList, "y".toList] ∧
    specCleanPath "/api/state".toList "/api/state/x/api/state/y".toList
        = ["x".toList, "api".toList, "state".toList, "y".toList] ∧
    clean_state_path "/api/state".toList "/api/state/x/api/state/y".toList
        ≠ specCleanPath "/api/state".toList
            "/api/state/x/api/state/y".toList := by decide

/-- C8 amended: for a nonempty, quote-free method path, on every request
path in which the method-path string does not occur again after its
optional leading occurrence, the parser behaves exactly as specified:
the method path is stripped at the front, the rest splits on unquoted
separators only, and each quoted span is one segment (so
`state/"a/b"/c` requests parse to `["a/b", "c"]`).  Outside that
family the two sides diverge (see the counterexample). -/
theorem claim_C8_amended (mp rp : List Char) (hne : mp ≠ [])
    (hq : hasChar quoteC mp = false)
    (hocc : occursIn mp (stripHead mp rp) = false) :
    clean_state_path mp rp = specCleanPath mp rp := by
  unfold clean_state_path specCleanPath
  unfold stripHead at hocc
  by_cases hph : patHere mp rp = true
  · rw [if_pos hph] at hocc
    have hrp : rp = mp ++ rp.drop mp.length := patHere_drop mp rp hph
    obtain ⟨p0, ps0, hmp⟩ : ∃ p0 ps0, mp = p0 :: ps0 := by
      cases mp with
      | nil => exact absurd rfl hne
      | cons p0 ps0 => exact ⟨p0, ps0, rfl⟩
    rw [show specGo true (pySplit quoteC (stripHead mp rp))
        = specGo true (pySplit quoteC (rp.drop mp.length)) by
      unfold stripHead; rw [if_pos hph]]
    conv_lhs => rw [hrp]
    obtain ⟨hfree1, hfree2⟩ :=
      occursIn_splitP mp quoteC (rp.drop mp.length) hne hocc
    have hsplit := pySplitP_append quoteC mp (rp.drop mp.length) hq
    simp only [pySplit, hsplit]
    have hlen : (mp ++ (pySplitP quoteC (rp.drop mp.length)).1).length ≠ 0 := by
      rw [hmp]; simp
    simp only [cleanGo, specGo, hlen, if_false]
    have hstrip : pyReplace mp
        (mp ++ (pySplitP quoteC (rp.drop mp.length)).1)
          = (pySplitP quoteC (rp.drop mp.length)).1 := by
      rw [hmp]
      exact pyReplace_strip p0 ps0 _ (hmp ▸ hfree1)
    rw [hstrip]
    have hrest : cleanGo mp false (pySplitP quoteC (rp.drop mp.length)).2
        = specGo false (pySplitP quoteC (rp.drop mp.length)).2 :=
      cleanGo_eq_specGo mp _ false
        (fun p hp => pyReplace_no_occur mp p (hfree2 p hp))
    simp only [Bool.not_true]
    rw [hrest]
  · rw [if_neg hph] at hocc
    rw [show stripHead mp rp = rp by unfold stripHead; rw [if_neg hph]]
    obtain ⟨hfree1, hfree2⟩ := occursIn_splitP mp quoteC rp hne hocc
    refine cleanGo_eq_specGo mp _ true ?_
    intro p hp
    rcases List.mem_cons.mp hp with hp | hp
    · exact hp ▸ pyReplace_no_occur mp _ hfree1
    · exact pyReplace_no_occur mp p (hfree2 p hp)

theorem claim_C8_witness :
    ("/api/state".toList ≠ ([] : List Char) ∧
      hasChar quoteC "/api/state".toList = false ∧
      occursIn "/api/state".toList
        (stripHead "/api/state".toList
          "/api/state/\"a/b\"/c".toList) = false ∧
      clean_state_path "/api/state".toList "/api/state/\"a/b\"/c".toList
        = specCleanPath "/api/state".toList
            "/api/state/\"a/b\"/c".toList) ∧
    clean_state_path "/api/state".toList "/api/state/\"a/b\"/c".toList
      = ["a/b".toList, "c".toList] :=
  ⟨⟨by decide, by decide, by decide,
    claim_C8_amended "/api/state".toList "/api/state/\"a/b\"/c".toList
      (by decide) (by decide) (by decide)⟩, by decide⟩

end ABR
